import Mathlib

set_option maxRecDepth 8000
set_option maxHeartbeats 1000000

/-!
Verification of the bootstrap/configuration-rewrite tool of
`topheman/vite-react-ts-template` (`scripts/bootstrap.ts`).

File contents and command-line tokens are modelled as lists of characters
(`Str`), so that the JavaScript string primitives the script uses
(`split`, `join`, `trim`, `startsWith`, `endsWith`, `includes`,
`toLowerCase`) can be embedded as executable functions amenable to
induction.  Every definition below is a direct translation of the
correspondingly named function of `scripts/bootstrap.ts`.
-/

namespace Bootstrap

/-- The character-list model of JavaScript strings. -/
abbrev Str := List Char

/-- Converts a Lean string literal into the character-list model. -/
def str (s : String) : Str := s.toList

/-- JavaScript `String.prototype.startsWith`. -/
def startsWithStr : Str → Str → Bool
  | _, [] => true
  | [], _ :: _ => false
  | c :: s, d :: p => c == d && startsWithStr s p

/-- JavaScript `String.prototype.includes`. -/
def containsStr : Str → Str → Bool
  | [], sub => startsWithStr [] sub
  | c :: s, sub => startsWithStr (c :: s) sub || containsStr s sub

/-- JavaScript `String.prototype.endsWith`. -/
def endsWithStr (s p : Str) : Bool := startsWithStr s.reverse p.reverse

/-- The ECMAScript whitespace set: the characters matched by `\s` in a
regular expression and stripped by `String.prototype.trim`. -/
def jsWhitespace (c : Char) : Bool :=
  c == ' ' || c == '\t' || c == '\n' || c == '\r' ||
  c == Char.ofNat 0xb || c == Char.ofNat 0xc || c == Char.ofNat 0xa0 ||
  c == Char.ofNat 0x1680 || (0x2000 ≤ c.toNat && c.toNat ≤ 0x200a) ||
  c == Char.ofNat 0x2028 || c == Char.ofNat 0x2029 || c == Char.ofNat 0x202f ||
  c == Char.ofNat 0x205f || c == Char.ofNat 0x3000 || c == Char.ofNat 0xfeff

/-- The ECMAScript line-terminator set: the characters NOT matched by `.`
in a regular expression without the `s` flag. -/
def lineTerm (c : Char) : Bool :=
  c == '\n' || c == '\r' || c == Char.ofNat 0x2028 || c == Char.ofNat 0x2029

/-- JavaScript `String.prototype.trim`. -/
def trimStr (s : Str) : Str :=
  ((s.dropWhile jsWhitespace).reverse.dropWhile jsWhitespace).reverse

/-- JavaScript `String.prototype.toLowerCase` (ASCII-faithful). -/
def toLowerStr (s : Str) : Str := s.map Char.toLower

/-- JavaScript `String.prototype.split` with a one-character separator:
`"".split(c)` is `[""]` and separators at either end produce empty pieces. -/
def splitOnChar (sep : Char) : Str → List Str
  | [] => [[]]
  | c :: s =>
    if c == sep then [] :: splitOnChar sep s
    else
      match splitOnChar sep s with
      | [] => [[c]]
      | l :: ls => (c :: l) :: ls

/-- `content.split("\n")`. -/
def splitNl (s : Str) : List Str := splitOnChar '\n' s

/-- JavaScript `Array.prototype.join` with the given separator. -/
def joinSep (sep : Str) : List Str → Str
  | [] => []
  | [l] => l
  | l :: l' :: ls => l ++ sep ++ joinSep sep (l' :: ls)

/-- `lines.join("\n")`. -/
def joinNl (ls : List Str) : Str := joinSep ['\n'] ls

/-- Number of trailing `'\n'` characters of a string; "ends with exactly one
trailing newline" is `trailNl s = 1`. -/
def trailNl (s : Str) : Nat := (s.reverse.takeWhile (fun c => c == '\n')).length

/-- Number of trailing empty lines of a line list. -/
def trailingEmpties (ls : List Str) : Nat :=
  (ls.reverse.takeWhile (fun l => l == ([] : Str))).length

/-! ### Types and constants (`scripts/bootstrap.ts`, lines 12-37) -/

/-- The closed `PACKAGE_MANAGERS` enumeration. -/
inductive PackageManager where
  | npm
  | yarn
  | pnpm
deriving DecidableEq, Repr

/-- The string spellings in `PACKAGE_MANAGERS`, in source order. -/
def PACKAGE_MANAGERS : List Str := [str "npm", str "yarn", str "pnpm"]

/-- Maps a token to the enumeration member it spells, if any; mirrors
`PACKAGE_MANAGERS.includes(pm)` followed by the cast `pm as PackageManager`. -/
def toPackageManager? (s : Str) : Option PackageManager :=
  if s = str "npm" then some .npm
  else if s = str "yarn" then some .yarn
  else if s = str "pnpm" then some .pnpm
  else none

/-- Fully resolved options (`BootstrapOptions`). -/
structure BootstrapOptions where
  name : Str
  description : Str
  packageManager : PackageManager
  interactive : Bool
deriving DecidableEq, Repr

/-- Options partially filled by the argument parser
(`Partial<BootstrapOptions>`). -/
structure PartialOptions where
  name : Option Str := none
  description : Option Str := none
  packageManager : Option PackageManager := none
  interactive : Option Bool := none
deriving DecidableEq, Repr

/-- The `DEFAULTS` constant. -/
def DEFAULTS : BootstrapOptions :=
  { name := str "topheman/vite-react-ts-template"
    description := str "A starter template for frontend projects."
    packageManager := .npm
    interactive := true }

/-- `ENV_VARS.TITLE`. -/
def ENV_TITLE : Str := str "VITE_TITLE"

/-- `ENV_VARS.DESCRIPTION`. -/
def ENV_DESCRIPTION : Str := str "VITE_DESCRIPTION"

/-- The `RESOURCES_SECTION` constant appended to the README. -/
def RESOURCES_SECTION : Str :=
  str "## Resources\n\nThis project is based on the [topheman/vite-react-ts-template](https://github.com/topheman/vite-react-ts-template) template.\n"

/-! ### Argument parsing (`scripts/bootstrap.ts`, lines 43-113) -/

/-- Result of `collectFlagValue`. -/
structure FlagParseResult where
  value : Str
  nextIndex : Nat
deriving DecidableEq, Repr

/-- `collectFlagValue(args, startIndex)`: collects the tokens from
`startIndex` up to (excluding) the next token starting with `"--"`, joined
with single spaces; `nextIndex` is the index of the last consumed token
(the source returns `i - 1` because the outer loop will increment).  The
source value can be `startIndex - 1`; every call site passes
`startIndex = i + 1 ≥ 1` and immediately increments the result, so the
truncated `Nat` subtraction is exact there. -/
def collectFlagValue (args : List Str) (startIndex : Nat) : FlagParseResult :=
  let parts := (args.drop startIndex).takeWhile (fun a => !startsWithStr a (str "--"))
  { value := joinSep [' '] parts, nextIndex := startIndex + parts.length - 1 }

/-- The `for` loop body of `parseArgs`.  The loop advances the index on
every iteration, so `args.length + 1` units of fuel always suffice; the
fuel makes the definition structurally recursive (hence executable in the
kernel) without changing its meaning.  `process.exit(1)` inside
`validatePackageManager` is modelled as `Except.error 1`. -/
def parseArgsLoop (args : List Str) : Nat → Nat → PartialOptions → Except Nat PartialOptions
  | 0, _, acc => .ok acc
  | fuel + 1, i, acc =>
    if i < args.length then
      if args.getD i [] = str "--name" then
        parseArgsLoop args fuel ((collectFlagValue args (i + 1)).nextIndex + 1)
          (if (collectFlagValue args (i + 1)).value ≠ [] then
            { acc with name := some (collectFlagValue args (i + 1)).value }
          else acc)
      else if args.getD i [] = str "--description" then
        parseArgsLoop args fuel ((collectFlagValue args (i + 1)).nextIndex + 1)
          (if (collectFlagValue args (i + 1)).value ≠ [] then
            { acc with description := some (collectFlagValue args (i + 1)).value }
          else acc)
      else if args.getD i [] = str "--packageManager" ∧ args.getD (i + 1) [] ≠ [] then
        match toPackageManager? (args.getD (i + 1) []) with
        | some pm => parseArgsLoop args fuel (i + 2) { acc with packageManager := some pm }
        | none => .error 1
      else if args.getD i [] = str "--interactive" then
        if args.getD (i + 1) [] = str "false" ∨ args.getD (i + 1) [] = str "0" then
          parseArgsLoop args fuel (i + 2) { acc with interactive := some false }
        else
          parseArgsLoop args fuel (i + 1) { acc with interactive := some true }
      else if args.getD i [] = str "--no-interactive" then
        parseArgsLoop args fuel (i + 1) { acc with interactive := some false }
      else
        parseArgsLoop args fuel (i + 1) acc
    else .ok acc

/-- `parseArgs()` over an explicit token list (`process.argv.slice(2)`). -/
def parseArgs (args : List Str) : Except Nat PartialOptions :=
  parseArgsLoop args (args.length + 1) 0 {}

/-! ### Configuration resolution (`scripts/bootstrap.ts`, lines 143-229) -/

/-- JavaScript `a || b` on strings, where the empty string is falsy. -/
def jsOr (a b : Str) : Str := if a = [] then b else a

/-- `mergeOptions(cliArgs, packageJsonValues)`. -/
def mergeOptions (cliArgs : PartialOptions) (packageJsonValues : Str × Str) :
    BootstrapOptions :=
  { name := jsOr (cliArgs.name.getD []) (jsOr packageJsonValues.1 DEFAULTS.name)
    description :=
      jsOr (cliArgs.description.getD []) (jsOr packageJsonValues.2 DEFAULTS.description)
    packageManager := cliArgs.packageManager.getD DEFAULTS.packageManager
    interactive := cliArgs.interactive.getD DEFAULTS.interactive }

/-- `shouldSkipInteractive(cliArgs)`; `process.argv.includes(...)` is
modelled over the user-supplied token list (the two leading entries of
`process.argv` are file-system paths, never `--`-flags). -/
def shouldSkipInteractive (cliArgs : PartialOptions) (argv : List Str) : Bool :=
  cliArgs.interactive == some false ||
  argv.contains (str "--no-interactive") ||
  argv.contains (str "--interactive=false")

/-- The answers typed at the interactive prompts of one run. -/
structure Answers where
  nameAnswer : Str := []
  descAnswer : Str := []
  pmAnswer : Str := []
  confirmAnswer : Str := []
deriving DecidableEq, Repr

/-- `promptForUserInput(rli, options)` as a pure function of the typed
answers: an answer with empty trimmed form keeps the previous value; a
non-empty invalid package manager keeps the previous value (with a logged
warning).  A valid member of `PACKAGE_MANAGERS` is never empty, so the
source's `trimmedPm && PACKAGE_MANAGERS.includes(trimmedPm)` is exactly
the success of `toPackageManager?`. -/
def promptForUserInput (options : BootstrapOptions) (a : Answers) : BootstrapOptions :=
  let options :=
    if trimStr a.nameAnswer ≠ [] then { options with name := trimStr a.nameAnswer } else options
  let options :=
    if trimStr a.descAnswer ≠ [] then { options with description := trimStr a.descAnswer }
    else options
  match toPackageManager? (trimStr a.pmAnswer) with
  | some pm => { options with packageManager := pm }
  | none => options

/-! ### The .env patcher (`scripts/bootstrap.ts`, lines 280-418) -/

/-- `isEnvVarLine(line, key)`. -/
def isEnvVarLine (line key : Str) : Bool :=
  startsWithStr (trimStr line) (key ++ ['='])

/-- `updateEnvVarInPlace(lines, key, value)`: replaces the first line
assigning `key` with `` `${key}=${value || ""}` `` (which is `key=value`
for every value) and reports whether a line was found. -/
def updateEnvVarInPlace (lines : List Str) (key value : Str) : List Str × Bool :=
  match lines with
  | [] => ([], false)
  | l :: ls =>
    if isEnvVarLine l key then ((key ++ '=' :: value) :: ls, true)
    else
      let r := updateEnvVarInPlace ls key value
      (l :: r.1, r.2)

/-- `removeTrailingEmptyLines(lines)`: pops lines whose trimmed form is
empty from the end. -/
def removeTrailingEmptyLines (lines : List Str) : List Str :=
  ((lines.reverse).dropWhile (fun l => trimStr l == [])).reverse

/-- `addMissingEnvVars(lines, varsToAdd)`. -/
def addMissingEnvVars (lines : List Str) (varsToAdd : List (Str × Str)) : List Str :=
  if varsToAdd = [] then lines
  else
    let lines := removeTrailingEmptyLines lines
    let lines := if lines ≠ [] then lines ++ [[]] else lines
    lines ++ varsToAdd.map (fun kv => kv.1 ++ '=' :: kv.2)

/-- The content written by `writeEnvFile(env)` where
`env[VITE_TITLE] = title` and `env[VITE_DESCRIPTION] = description`
(as set by `applyBootstrapChanges`); `existing` is the current `.env`
content, `none` when the file does not exist (then `""` is used). -/
def writeEnvFileContent (title description : Str) (existing : Option Str) : Str :=
  let originalContent := existing.getD []
  let lines := splitNl originalContent
  let r1 := updateEnvVarInPlace lines ENV_TITLE title
  let varsToAdd1 : List (Str × Str) := if r1.2 then [] else [(ENV_TITLE, title)]
  let r2 := updateEnvVarInPlace r1.1 ENV_DESCRIPTION description
  let varsToAdd := varsToAdd1 ++ (if r2.2 then [] else [(ENV_DESCRIPTION, description)])
  let lines := addMissingEnvVars r2.1 varsToAdd
  let content := joinNl lines
  content ++ (if content ≠ [] ∧ ¬ endsWithStr content ['\n'] then ['\n'] else [])

/-! ### The README patcher (`scripts/bootstrap.ts`, lines 427-461) -/

/-- `updateReadmeTitle(content, name)`: rewrites the first line to
`# name` when it already starts with `#`, otherwise prepends the heading
above the existing first line. -/
def updateReadmeTitle (content name : Str) : Str :=
  joinNl
    (if startsWithStr ((splitNl content).headD []) (str "#") then
      (str "# " ++ name) :: (splitNl content).tail
    else
      (str "# " ++ name ++ '\n' :: (splitNl content).headD []) :: (splitNl content).tail)

/-- `appendResourcesSection(content)`. -/
def appendResourcesSection (content : Str) : Str :=
  if containsStr content (str "## Resources") then content
  else
    content ++ (if endsWithStr content ['\n'] then ['\n'] else ['\n', '\n']) ++
      RESOURCES_SECTION

/-- The content written by `updateReadme(name)`. -/
def updateReadmeContent (content name : Str) : Str :=
  appendResourcesSection (updateReadmeTitle content name)

/-! ### Install-command tables and the workspace-config patcher
(`scripts/bootstrap.ts`, lines 466-503) -/

/-- `getWorktreeInstallCommand(packageManager)`. -/
def getWorktreeInstallCommand : PackageManager → Str
  | .npm => str "npm install"
  | .pnpm => str "pnpm install"
  | .yarn => str "yarn"

/-- `getGithubActionsInstallCommand(packageManager)`. -/
def getGithubActionsInstallCommand : PackageManager → Str
  | .npm => str "npm ci"
  | .pnpm => str "pnpm install"
  | .yarn => str "yarn install --frozen-lockfile"

/-- The content written by `updateWorktreesJson(packageManager)`:
`JSON.stringify({ "setup-worktree": [cmd] }, null, 2) + "\n"`. -/
def worktreesJsonContent (packageManager : PackageManager) : Str :=
  str "\x7b\n  \"setup-worktree\": [\n    \"" ++
    getWorktreeInstallCommand packageManager ++ str "\"\n  ]\n\x7d\n"

/-! ### The CI-workflow patcher (`scripts/bootstrap.ts`, lines 508-537)

The regular expression `/(\s+- name: Install dependencies\s+run: )(.+)/`
is embedded as an explicit matcher.  Both `\s+` runs are followed by a
non-whitespace literal character, so backtracking can never shorten them:
each consumes exactly the maximal whitespace run, and `(.+)` consumes
greedily to the end of the line.  `String.prototype.replace` with a
non-global pattern rewrites the leftmost match only. -/

/-- The literal step-name part of the pattern. -/
def NAME_LIT : Str := str "- name: Install dependencies"

/-- The literal run-prefix part of the pattern. -/
def RUN_LIT : Str := str "run: "

/-- The part of the matcher after the step-name literal (`\s+run: ` and
`(.+)`): returns the matched `\s+run: ` text, the command and the
remainder of the string. -/
def matchTail (s2 : Str) : Option (Str × Str × Str) :=
  if s2.takeWhile jsWhitespace = [] then none
  else if startsWithStr (s2.dropWhile jsWhitespace) RUN_LIT then
    if ((s2.dropWhile jsWhitespace).drop RUN_LIT.length).takeWhile
        (fun c => !lineTerm c) = [] then none
    else
      some (s2.takeWhile jsWhitespace ++ RUN_LIT,
        ((s2.dropWhile jsWhitespace).drop RUN_LIT.length).takeWhile (fun c => !lineTerm c),
        ((s2.dropWhile jsWhitespace).drop RUN_LIT.length).dropWhile (fun c => !lineTerm c))
  else none

/-- Attempts to match the pattern at the start of `s`; on success
returns the first capture group
(`\s+- name: Install dependencies\s+run: `), the second capture group
(`.+`) and the remainder of the string. -/
def matchInstallAt (s : Str) : Option (Str × Str × Str) :=
  if s.takeWhile jsWhitespace = [] then none
  else if startsWithStr (s.dropWhile jsWhitespace) NAME_LIT then
    match matchTail ((s.dropWhile jsWhitespace).drop NAME_LIT.length) with
    | some (g, cmd, rest) =>
      some (s.takeWhile jsWhitespace ++ NAME_LIT ++ g, cmd, rest)
    | none => none
  else none

/-- Chooses a match found at the current position (with empty preceding
text) over the result of scanning further right. -/
def chooseFound (m : Option (Str × Str × Str))
    (alt : Option (Str × Str × Str × Str)) : Option (Str × Str × Str × Str) :=
  match m with
  | some (g1, g2, rest) => some ([], g1, g2, rest)
  | none => alt

/-- Records one skipped character in front of a match found further
right. -/
def prependFound (c : Char) (r : Option (Str × Str × Str × Str)) :
    Option (Str × Str × Str × Str) :=
  r.map (fun r => (c :: r.1, r.2.1, r.2.2.1, r.2.2.2))

/-- Finds the leftmost match of the pattern: returns the text before the
match, the two capture groups and the remainder. -/
def findInstallGo : Str → Option (Str × Str × Str × Str)
  | [] => none
  | c :: cs => chooseFound (matchInstallAt (c :: cs)) (prependFound c (findInstallGo cs))

/-- `line.replace(/run: .+/, "run: " + cmd)`: rewrites the leftmost
occurrence of `run: ` followed by at least one non-line-terminator. -/
def replaceRunCmd (cmd : Str) : Str → Str
  | [] => []
  | c :: cs =>
    if startsWithStr (c :: cs) RUN_LIT ∧
        ((c :: cs).drop RUN_LIT.length).takeWhile (fun x => !lineTerm x) ≠ [] then
      RUN_LIT ++ cmd ++ ((c :: cs).drop RUN_LIT.length).dropWhile (fun x => !lineTerm x)
    else c :: replaceRunCmd cmd cs

/-- The fallback path of `updateDeployYml`: line-by-line scan for a line
containing `Install dependencies` whose successor contains `run:`;
rewrites that successor and stops. -/
def fallbackReplace (cmd : Str) : List Str → List Str
  | [] => []
  | [l] => [l]
  | l :: l' :: rest =>
    if containsStr l (str "Install dependencies") ∧ containsStr l' (str "run:") then
      l :: replaceRunCmd cmd l' :: rest
    else
      l :: fallbackReplace cmd (l' :: rest)

/-- The content written by `updateDeployYml(packageManager)`. -/
def updateDeployYmlContent (packageManager : PackageManager) (content : Str) : Str :=
  let installCommand := getGithubActionsInstallCommand packageManager
  match findInstallGo content with
  | some (pre, g1, _, rest) => pre ++ g1 ++ installCommand ++ rest
  | none => joinNl (fallbackReplace installCommand (splitNl content))

/-! ### Summary, confirmation and the main flow
(`scripts/bootstrap.ts`, lines 575-646) -/

/-- `confirmChanges(rli)` as a function of the typed answer: `true`
(apply) unless the lowercased, trimmed answer is `n` or `no`. -/
def confirmChanges (answer : Str) : Bool :=
  let normalized := trimStr (toLowerStr answer)
  normalized ≠ str "n" ∧ normalized ≠ str "no"

/-- The mutable project state touched by one run: the `package.json`
fields (read and written through `npm pkg`), and the four text files.
`none` models a file that does not exist. -/
structure FS where
  pkgName : Str
  pkgDescription : Str
  readme : Str
  envFile : Option Str
  worktrees : Option Str
  deploy : Str
deriving DecidableEq, Repr

/-- `collectOptions(rli, cliArgs)`: merges CLI values, `package.json`
values and defaults, then prompts unless interactivity is skipped.  Also
returns how many questions were asked. -/
def collectOptions (argv : List Str) (cliArgs : PartialOptions) (fs : FS) (a : Answers) :
    BootstrapOptions × Nat :=
  let packageJsonValues := (fs.pkgName, fs.pkgDescription)
  let options := mergeOptions cliArgs packageJsonValues
  if ¬ shouldSkipInteractive cliArgs argv ∧ options.interactive then
    (promptForUserInput options a, 3)
  else (options, 0)

/-- `applyBootstrapChanges(options)` as a state transformer over `FS`:
`package.json` via `npm pkg set`, then the README, `.env`,
`.cursor/worktrees.json` and `.github/workflows/deploy.yml` patchers. -/
def applyBootstrapChanges (options : BootstrapOptions) (fs : FS) : FS :=
  { pkgName := options.name
    pkgDescription := options.description
    readme := updateReadmeContent fs.readme options.name
    envFile := some (writeEnvFileContent options.name options.description fs.envFile)
    worktrees := some (worktreesJsonContent options.packageManager)
    deploy := updateDeployYmlContent options.packageManager fs.deploy }

/-- Observable outcome of one run of `main()`. -/
structure RunResult where
  exitCode : Nat
  fs : FS
  questionsAsked : Nat
  confirmRan : Bool
  cancelled : Bool
deriving DecidableEq, Repr

/-- `main()`: parse (a `process.exit(1)` inside parsing aborts the run
before any file is touched), resolve options, then in interactive mode
show the summary and gate the patchers behind `confirmChanges`; otherwise
apply unconditionally.  Normal return is process exit code 0. -/
def mainModel (argv : List Str) (fs : FS) (a : Answers) : RunResult :=
  match parseArgs argv with
  | .error code =>
    { exitCode := code, fs := fs, questionsAsked := 0, confirmRan := false, cancelled := false }
  | .ok cliArgs =>
    if (collectOptions argv cliArgs fs a).1.interactive then
      if ¬ confirmChanges a.confirmAnswer then
        { exitCode := 0, fs := fs,
          questionsAsked := (collectOptions argv cliArgs fs a).2 + 1,
          confirmRan := true, cancelled := true }
      else
        { exitCode := 0,
          fs := applyBootstrapChanges (collectOptions argv cliArgs fs a).1 fs,
          questionsAsked := (collectOptions argv cliArgs fs a).2 + 1,
          confirmRan := true, cancelled := false }
    else
      { exitCode := 0,
        fs := applyBootstrapChanges (collectOptions argv cliArgs fs a).1 fs,
        questionsAsked := (collectOptions argv cliArgs fs a).2,
        confirmRan := false, cancelled := false }

/-- A small sample project state used by concrete witnesses. -/
def sampleFS : FS :=
  { pkgName := str "old-name"
    pkgDescription := str "old description"
    readme := str "# old\n"
    envFile := none
    worktrees := none
    deploy := str "jobs:\n      - name: Install dependencies\n        run: npm ci\n" }

/-- Sample answers: everything left at the default (empty line). -/
def sampleAnswers : Answers := {}

/-! ## Theorems -/

/-! ### Split/join infrastructure -/

theorem splitOnChar_ne_nil (sep : Char) (s : Str) : splitOnChar sep s ≠ [] := by
  induction s with
  | nil => simp [splitOnChar]
  | cons c s ih =>
    simp only [splitOnChar]
    split
    · simp
    · split
      · simp
      · simp

theorem not_mem_of_mem_splitOnChar (sep : Char) (s : Str) :
    ∀ l ∈ splitOnChar sep s, sep ∉ l := by
  induction s with
  | nil => simp [splitOnChar]
  | cons c s ih =>
    intro l hl
    simp only [splitOnChar] at hl
    by_cases hc : (c == sep) = true
    · rw [if_pos hc] at hl
      rcases List.mem_cons.mp hl with h1 | h1
      · subst h1; simp
      · exact ih l h1
    · rw [if_neg hc] at hl
      rcases hsp : splitOnChar sep s with _ | ⟨l0, ls0⟩
      · exact absurd hsp (splitOnChar_ne_nil sep s)
      · rw [hsp] at hl
        rcases List.mem_cons.mp hl with h1 | h1
        · subst h1
          intro hmem
          rcases List.mem_cons.mp hmem with h2 | h2
          · exact hc (by simp [h2])
          · exact ih l0 (by rw [hsp]; exact List.mem_cons_self _ _) h2
        · exact ih l (by rw [hsp]; exact List.mem_cons_of_mem _ h1)

theorem joinSep_cons_of_ne_nil (sep : Str) (l : Str) {ls : List Str} (h : ls ≠ []) :
    joinSep sep (l :: ls) = l ++ sep ++ joinSep sep ls := by
  cases ls with
  | nil => exact absurd rfl h
  | cons l' ls => rfl

theorem joinSep_splitOnChar (sep : Char) (s : Str) :
    joinSep [sep] (splitOnChar sep s) = s := by
  induction s with
  | nil => simp [splitOnChar, joinSep]
  | cons c s ih =>
    simp only [splitOnChar]
    by_cases hc : (c == sep) = true
    · rw [if_pos hc]
      rw [joinSep_cons_of_ne_nil [sep] [] (splitOnChar_ne_nil sep s), ih]
      simp [show c = sep from by simpa using hc]
    · rw [if_neg hc]
      rcases hsp : splitOnChar sep s with _ | ⟨l0, ls0⟩
      · exact absurd hsp (splitOnChar_ne_nil sep s)
      · rw [hsp] at ih
        cases ls0 with
        | nil => simpa [joinSep] using congrArg (c :: ·) ih
        | cons l1 ls1 =>
          rw [joinSep_cons_of_ne_nil [sep] (c :: l0) (by simp)]
          rw [joinSep_cons_of_ne_nil [sep] l0 (by simp)] at ih
          simpa using congrArg (c :: ·) ih

theorem splitOnChar_not_mem (sep : Char) {s : Str} (h : sep ∉ s) :
    splitOnChar sep s = [s] := by
  induction s with
  | nil => rfl
  | cons c s ih =>
    have hc : ¬ (c == sep) = true := by
      simp only [beq_iff_eq]
      intro hcs
      exact h (by simp [hcs])
    have hs : sep ∉ s := fun hm => h (List.mem_cons_of_mem _ hm)
    simp only [splitOnChar, if_neg hc, ih hs]

theorem splitOnChar_append_not_mem (sep : Char) {a : Str} (s : Str) (h : sep ∉ a)
    {l : Str} {ls : List Str} (hs : splitOnChar sep s = l :: ls) :
    splitOnChar sep (a ++ s) = (a ++ l) :: ls := by
  induction a with
  | nil => simpa using hs
  | cons c a ih =>
    have hc : ¬ (c == sep) = true := by
      simp only [beq_iff_eq]
      intro hcs
      exact h (by simp [hcs])
    have ha : sep ∉ a := fun hm => h (List.mem_cons_of_mem _ hm)
    simp only [List.cons_append, splitOnChar, if_neg hc]
    rw [show a.append s = a ++ s from rfl, ih ha]

theorem splitOnChar_joinSep (sep : Char) {ls : List Str} (hne : ls ≠ [])
    (h : ∀ l ∈ ls, sep ∉ l) :
    splitOnChar sep (joinSep [sep] ls) = ls := by
  induction ls with
  | nil => exact absurd rfl hne
  | cons l ls ih =>
    cases ls with
    | nil =>
      simp only [joinSep]
      exact splitOnChar_not_mem sep (h l (by simp))
    | cons l' ls' =>
      rw [joinSep_cons_of_ne_nil [sep] l (by simp)]
      have hrec : splitOnChar sep (joinSep [sep] (l' :: ls')) = l' :: ls' :=
        ih (by simp) (fun x hx => h x (List.mem_cons_of_mem _ hx))
      have hstep : splitOnChar sep (sep :: joinSep [sep] (l' :: ls')) =
          [] :: l' :: ls' := by
        simp only [splitOnChar, if_pos (by simp : (sep == sep) = true), hrec]
      have := splitOnChar_append_not_mem sep
        (sep :: joinSep [sep] (l' :: ls')) (h l (by simp)) hstep
      simpa [List.append_assoc] using this

theorem joinSep_append_last (sep : Str) {ls : List Str} (x : Str) (h : ls ≠ []) :
    joinSep sep (ls ++ [x]) = joinSep sep ls ++ sep ++ x := by
  induction ls with
  | nil => exact absurd rfl h
  | cons l ls ih =>
    cases ls with
    | nil => simp [joinSep]
    | cons l' ls' =>
      rw [List.cons_append, joinSep_cons_of_ne_nil sep l (by simp),
        joinSep_cons_of_ne_nil sep l (by simp), ih (by simp)]
      simp [List.append_assoc]

theorem joinNl_eq_nil_iff (ls : List Str) :
    joinNl ls = [] ↔ ls = [] ∨ ls = [[]] := by
  cases ls with
  | nil => simp [joinNl, joinSep]
  | cons l ls =>
    cases ls with
    | nil => simp [joinNl, joinSep]
    | cons l' ls' =>
      rw [joinNl, joinSep_cons_of_ne_nil ['\n'] l (by simp)]
      simp

theorem joinNl_cons_embedded (a b : Str) (ls : List Str) :
    joinNl ((a ++ '\n' :: b) :: ls) = joinNl (a :: b :: ls) := by
  cases ls with
  | nil => simp [joinNl, joinSep]
  | cons l' ls' =>
    simp only [joinNl]
    rw [joinSep_cons_of_ne_nil ['\n'] (a ++ '\n' :: b) (by simp),
      joinSep_cons_of_ne_nil ['\n'] a (by simp),
      joinSep_cons_of_ne_nil ['\n'] b (by simp)]
    simp [List.append_assoc]

/-! ### takeWhile/dropWhile toolkit -/

theorem takeWhile_append_split (p : α → Bool) (u v : List α) :
    (u ++ v).takeWhile p =
      if u.all p then u ++ v.takeWhile p else u.takeWhile p := by
  induction u with
  | nil => simp
  | cons c u ih =>
    by_cases hc : p c = true
    · simp [List.takeWhile_cons, hc, ih]
      split <;> simp_all
    · simp [List.takeWhile_cons, hc]

theorem takeWhile_append_all {p : α → Bool} {u : List α} (v : List α)
    (h : ∀ c ∈ u, p c = true) :
    (u ++ v).takeWhile p = u ++ v.takeWhile p := by
  rw [takeWhile_append_split, if_pos (List.all_eq_true.mpr h)]

theorem takeWhile_cons_false {p : α → Bool} {c : α} (l : List α) (h : p c = false) :
    (c :: l).takeWhile p = [] := by
  simp [List.takeWhile_cons, h]

theorem dropWhile_append_all {p : α → Bool} {u : List α} (v : List α)
    (h : ∀ c ∈ u, p c = true) :
    (u ++ v).dropWhile p = v.dropWhile p := by
  induction u with
  | nil => simp
  | cons c u ih =>
    simp only [List.cons_append, List.dropWhile_cons, h c (by simp)]
    exact ih (fun x hx => h x (List.mem_cons_of_mem _ hx))

theorem dropWhile_append_ne_nil {p : α → Bool} {u : List α} (v : List α)
    (h : u.dropWhile p ≠ []) :
    (u ++ v).dropWhile p = u.dropWhile p ++ v := by
  induction u with
  | nil => exact absurd rfl h
  | cons c u ih =>
    by_cases hc : p c = true
    · have h' : u.dropWhile p ≠ [] := by
        simpa [List.dropWhile_cons, hc] using h
      simp only [List.cons_append, List.dropWhile_cons, hc, if_true, ih h']
    · simp [List.dropWhile_cons, hc]

theorem dropWhile_eq_drop_takeWhile (p : α → Bool) (l : List α) :
    l.dropWhile p = l.drop (l.takeWhile p).length := by
  induction l with
  | nil => rfl
  | cons c l ih =>
    by_cases hc : p c = true
    · simp [List.dropWhile_cons, List.takeWhile_cons, hc, ih]
    · simp [List.dropWhile_cons, List.takeWhile_cons, hc]

/-! ### startsWith/contains toolkit -/

theorem startsWithStr_nil {p : Str} (h : p ≠ []) : startsWithStr [] p = false := by
  cases p with
  | nil => exact absurd rfl h
  | cons c p => rfl

theorem startsWithStr_nil_right (s : Str) : startsWithStr s [] = true := by
  cases s <;> rfl

theorem startsWithStr_append_self (p t : Str) : startsWithStr (p ++ t) p = true := by
  induction p with
  | nil => exact startsWithStr_nil_right t
  | cons c p ih => simp [startsWithStr, ih]

theorem startsWithStr_iff (s p : Str) :
    startsWithStr s p = true ↔ ∃ t, s = p ++ t := by
  constructor
  · intro h
    induction p generalizing s with
    | nil => exact ⟨s, rfl⟩
    | cons c p ih =>
      cases s with
      | nil => exact absurd h (by simp [startsWithStr])
      | cons d s' =>
        simp only [startsWithStr, Bool.and_eq_true, beq_iff_eq] at h
        obtain ⟨t, ht⟩ := ih s' h.2
        exact ⟨t, by simp [h.1, ht]⟩
  · rintro ⟨t, rfl⟩
    exact startsWithStr_append_self p t

theorem containsStr_of_startsWith {s sub : Str} (h : startsWithStr s sub = true) :
    containsStr s sub = true := by
  cases s with
  | nil => simpa [containsStr] using h
  | cons c s' => simp [containsStr, h]

theorem containsStr_append_right {sub : Str} (a : Str) {b : Str}
    (h : containsStr b sub = true) :
    containsStr (a ++ b) sub = true := by
  induction a with
  | nil => simpa using h
  | cons c a ih => simp [containsStr, ih]

/-! ### Trailing-newline toolkit -/

theorem trailNl_nil : trailNl [] = 0 := rfl

theorem trailNl_append_newline (s : Str) : trailNl (s ++ ['\n']) = trailNl s + 1 := by
  simp [trailNl, List.takeWhile_cons]

theorem trailNl_of_getLast_not_newline {s : Str} {c : Char}
    (h : s.getLast? = some c) (hc : ¬ c = '\n') : trailNl s = 0 := by
  have hrev : s.reverse.head? = some c := by
    rw [List.head?_reverse]; exact h
  cases hsr : s.reverse with
  | nil => simp [hsr] at hrev
  | cons d t =>
    rw [hsr] at hrev
    simp only [List.head?_cons, Option.some_inj] at hrev
    subst hrev
    simp [trailNl, hsr, List.takeWhile_cons, hc]

theorem endsWith_newline_iff (s : Str) :
    endsWithStr s ['\n'] = true ↔ 0 < trailNl s := by
  unfold endsWithStr trailNl
  cases hsr : s.reverse with
  | nil => simp [startsWithStr]
  | cons c t =>
    by_cases hc : (c == '\n') = true
    · simp [startsWithStr, hc, List.takeWhile_cons, startsWithStr_nil_right]
    · simp [startsWithStr, hc, List.takeWhile_cons]

theorem getLast?_mem_of_eq {l : List α} {a : α} (h : l.getLast? = some a) : a ∈ l := by
  have hrev : l.reverse.head? = some a := by rw [List.head?_reverse]; exact h
  cases hlr : l.reverse with
  | nil => simp [hlr] at hrev
  | cons c t =>
    rw [hlr] at hrev
    simp only [List.head?_cons, Option.some_inj] at hrev
    subst hrev
    have : c ∈ l.reverse := by rw [hlr]; exact List.mem_cons_self _ _
    simpa using this

theorem trailingEmpties_snoc (ls : List Str) (x : Str) :
    trailingEmpties (ls ++ [x]) =
      if x = [] then trailingEmpties ls + 1 else 0 := by
  by_cases hx : x = []
  · simp [trailingEmpties, hx, List.takeWhile_cons]
  · simp [trailingEmpties, List.takeWhile_cons, hx]

theorem takeWhile_length_le (p : α → Bool) (l : List α) :
    (l.takeWhile p).length ≤ l.length := by
  induction l with
  | nil => simp
  | cons c l ih =>
    rw [List.takeWhile_cons]
    split
    · simpa using ih
    · simp

theorem trailingEmpties_le_length (ls : List Str) :
    trailingEmpties ls ≤ ls.length := by
  calc trailingEmpties ls ≤ ls.reverse.length := takeWhile_length_le _ _
    _ = ls.length := List.length_reverse ls

theorem trailingEmpties_mid {x : Str} (hx : x ≠ []) (A B : List Str) :
    trailingEmpties (A ++ x :: B) = trailingEmpties B := by
  unfold trailingEmpties
  rw [show (A ++ x :: B).reverse = B.reverse ++ x :: A.reverse from by simp]
  rw [takeWhile_append_split]
  split
  next hall =>
    rw [takeWhile_cons_false A.reverse (by simp [hx])]
    have hself : B.reverse.takeWhile (fun l => l == ([] : Str)) = B.reverse :=
      List.takeWhile_eq_self_iff.mpr (List.all_eq_true.mp hall)
    rw [List.append_nil, hself]
  next => rfl

theorem exists_getLast?_of_ne_nil {l : List α} (h : l ≠ []) :
    ∃ a, l.getLast? = some a := by
  cases hl : l.getLast? with
  | some a => exact ⟨a, rfl⟩
  | none =>
    have : l.reverse.head? = none := by rw [List.head?_reverse]; exact hl
    have : l.reverse = [] := List.head?_eq_none_iff.mp this
    exact absurd (by simpa using congrArg List.reverse this) h

theorem trailNl_joinNl_snoc_ne {ls : List Str} {x : Str} (hx : x ≠ [])
    (hnl : ('\n' : Char) ∉ x) :
    trailNl (joinNl (ls ++ [x])) = 0 := by
  obtain ⟨c, hc⟩ := exists_getLast?_of_ne_nil hx
  have hcnl : ¬ c = '\n' := fun h => hnl (h ▸ getLast?_mem_of_eq hc)
  cases hls : ls with
  | nil =>
    refine trailNl_of_getLast_not_newline ?_ hcnl
    simpa [joinNl, joinSep] using hc
  | cons l0 ls0 =>
    rw [← hls, joinNl, joinSep_append_last ['\n'] x (by simp [hls])]
    refine trailNl_of_getLast_not_newline ?_ hcnl
    rw [List.append_assoc, List.getLast?_append, List.getLast?_append]
    simp [hc]

/-- The number of trailing newlines of a joined line list: all the lines
are empty (then one newline per separator), or it is the number of
trailing empty lines. -/
theorem trailNl_joinNl (ls : List Str) (h : ∀ l ∈ ls, ('\n' : Char) ∉ l) :
    trailNl (joinNl ls) =
      if trailingEmpties ls = ls.length then ls.length - 1
      else trailingEmpties ls := by
  induction ls using List.reverseRecOn with
  | nil => simp [joinNl, joinSep, trailNl, trailingEmpties]
  | append_singleton ls a ih =>
    by_cases hls : ls = []
    · subst hls
      by_cases ha : a = []
      · subst ha
        simp [joinNl, joinSep, trailNl, trailingEmpties, List.takeWhile_cons]
      · have h0 : trailNl (joinNl ([] ++ [a])) = 0 := trailNl_joinNl_snoc_ne ha (h a (by simp))
        rw [h0, trailingEmpties_snoc, if_neg ha]
        simp [ha]
    · have hlen : 0 < ls.length := List.length_pos.mpr hls
      by_cases ha : a = []
      · subst ha
        rw [joinNl, joinSep_append_last ['\n'] [] hls, List.append_nil,
          show (joinSep ['\n'] ls ++ ['\n']) = (joinNl ls ++ ['\n']) from rfl,
          trailNl_append_newline, trailingEmpties_snoc, if_pos rfl]
        rw [ih (fun l hl => h l (List.mem_append_left _ hl))]
        by_cases hall : trailingEmpties ls = ls.length
        · rw [if_pos hall, if_pos (by simp [hall])]
          simp [Nat.sub_add_cancel hlen]
        · rw [if_neg hall,
            if_neg (by simp only [List.length_append, List.length_cons, List.length_nil]; omega)]
      · rw [trailNl_joinNl_snoc_ne ha (h a (by simp)), trailingEmpties_snoc, if_neg ha]
        rw [if_neg (by simp only [List.length_append, List.length_cons, List.length_nil]; omega)]

/-! ### Environment-file lemmas -/

theorem isEnvVarLine_nil (key : Str) : isEnvVarLine [] key = false := by
  unfold isEnvVarLine
  rw [show trimStr [] = [] from rfl]
  exact startsWithStr_nil (by simp)

theorem isEnvVarLine_ne_nil {l key : Str} (h : isEnvVarLine l key = true) : l ≠ [] := by
  intro hl
  rw [hl, isEnvVarLine_nil] at h
  exact Bool.false_ne_true h

theorem updateEnvVarInPlace_not_found {key v : Str} {ls : List Str}
    (h : ∀ l ∈ ls, isEnvVarLine l key = false) :
    updateEnvVarInPlace ls key v = (ls, false) := by
  induction ls with
  | nil => rfl
  | cons l ls ih =>
    have hl : ¬ isEnvVarLine l key = true := by
      simp [h l (List.mem_cons_self _ _)]
    simp only [updateEnvVarInPlace, if_neg hl,
      ih (fun x hx => h x (List.mem_cons_of_mem _ hx))]

theorem updateEnvVarInPlace_fst_of_not_found {key v : Str} {ls : List Str}
    (h : (updateEnvVarInPlace ls key v).2 = false) :
    (updateEnvVarInPlace ls key v).1 = ls := by
  induction ls with
  | nil => rfl
  | cons l ls ih =>
    by_cases hl : isEnvVarLine l key = true
    · simp [updateEnvVarInPlace, if_pos hl] at h
    · simp only [updateEnvVarInPlace, if_neg hl] at h ⊢
      rw [ih h]

theorem updateEnvVarInPlace_found {key v : Str} {ls : List Str}
    (h : (updateEnvVarInPlace ls key v).2 = true) :
    ∃ p f q, ls = p ++ f :: q ∧
      (updateEnvVarInPlace ls key v).1 = p ++ (key ++ '=' :: v) :: q ∧
      isEnvVarLine f key = true := by
  induction ls with
  | nil => simp [updateEnvVarInPlace] at h
  | cons l ls ih =>
    by_cases hl : isEnvVarLine l key = true
    · exact ⟨[], l, ls, rfl, by simp [updateEnvVarInPlace, if_pos hl], hl⟩
    · simp only [updateEnvVarInPlace, if_neg hl] at h ⊢
      obtain ⟨p, f, q, h1, h2, h3⟩ := ih h
      exact ⟨l :: p, f, q, by simp [h1], by simp [h2], h3⟩

theorem mem_removeTrailingEmptyLines {l : Str} {ls : List Str}
    (h : l ∈ removeTrailingEmptyLines ls) : l ∈ ls := by
  unfold removeTrailingEmptyLines at h
  have h1 : l ∈ ls.reverse.dropWhile (fun l => trimStr l == []) := by
    simpa using h
  exact List.mem_reverse.mp ((List.dropWhile_sublist _).mem h1)

theorem newline_not_mem_env_line {key v : Str} (hk : ('\n' : Char) ∉ key)
    (hv : ('\n' : Char) ∉ v) : ('\n' : Char) ∉ (key ++ '=' :: v) := by
  intro h
  rcases List.mem_append.mp h with h | h
  · exact hk h
  · rcases List.mem_cons.mp h with h | h
    · exact absurd h.symm (by decide)
    · exact hv h

/-- C3: for the token sequence `--name a b c --description x`, `parseArgs`
produces `name = "a b c"` and `description = "x"`: `collectFlagValue`
joins the tokens before the next `--`-token with single spaces and
reports `nextIndex = 3`, so the outer loop resumes at the
`--description` flag and recognizes it. -/
theorem parseArgs_multiword_then_flag :
    parseArgs [str "--name", str "a", str "b", str "c", str "--description", str "x"] =
      .ok { name := some (str "a b c"), description := some (str "x") } ∧
    collectFlagValue [str "--name", str "a", str "b", str "c", str "--description", str "x"] 1 =
      { value := str "a b c", nextIndex := 3 } :=
  ⟨rfl, rfl⟩

/-- The final newline step of `writeEnvFile`: a non-empty joined content
carrying at most one trailing newline always ends up with exactly one. -/
theorem trailNl_finalize {content : Str} (hc : content ≠ []) (h01 : trailNl content ≤ 1) :
    trailNl (content ++
      (if content ≠ [] ∧ ¬ endsWithStr content ['\n'] then ['\n'] else [])) = 1 := by
  by_cases hE : endsWithStr content ['\n'] = true
  · rw [if_neg (by simp [hE]), List.append_nil]
    have hpos : 0 < trailNl content := (endsWith_newline_iff _).mp hE
    omega
  · have hE' : endsWithStr content ['\n'] = false := by simpa using hE
    rw [if_pos ⟨hc, by simp [hE']⟩, trailNl_append_newline]
    have h0 : trailNl content = 0 := by
      by_contra hne
      exact hE ((endsWith_newline_iff _).mpr (Nat.pos_of_ne_zero hne))
    rw [h0]

/-- When at least one variable is queued for appending, the joined lines
end with that variable's `key=value` line, so they carry no trailing
newline and are non-empty. -/
theorem addMissing_trailNl_zero {ls : List Str} {vs : List (Str × Str)} (hvs : vs ≠ [])
    (hnl : ∀ kv ∈ vs, ('\n' : Char) ∉ (kv.1 ++ '=' :: kv.2)) :
    trailNl (joinNl (addMissingEnvVars ls vs)) = 0 ∧
      joinNl (addMissingEnvVars ls vs) ≠ [] := by
  have hvseq : vs.dropLast ++ [vs.getLast hvs] = vs := List.dropLast_append_getLast hvs
  have hkmem : vs.getLast hvs ∈ vs := List.getLast_mem hvs
  have hkline : ('\n' : Char) ∉
      ((vs.getLast hvs).1 ++ '=' :: (vs.getLast hvs).2) := hnl _ hkmem
  have hkne : ((vs.getLast hvs).1 ++ '=' :: (vs.getLast hvs).2) ≠ [] := by simp
  have hshape : addMissingEnvVars ls vs =
      ((if removeTrailingEmptyLines ls ≠ [] then removeTrailingEmptyLines ls ++ [[]]
          else removeTrailingEmptyLines ls) ++
        (vs.dropLast.map (fun kv => kv.1 ++ '=' :: kv.2))) ++
        [(vs.getLast hvs).1 ++ '=' :: (vs.getLast hvs).2] := by
    simp only [addMissingEnvVars, if_neg hvs]
    conv_lhs => rw [← hvseq]
    rw [List.map_append]
    simp [List.append_assoc]
  constructor
  · rw [hshape]
    exact trailNl_joinNl_snoc_ne hkne hkline
  · rw [hshape]
    intro hnil
    rcases (joinNl_eq_nil_iff _).mp hnil with hc | hc
    · exact (by simp : ((if removeTrailingEmptyLines ls ≠ [] then
        removeTrailingEmptyLines ls ++ [[]] else removeTrailingEmptyLines ls) ++
        (vs.dropLast.map (fun kv => kv.1 ++ '=' :: kv.2))) ++
        [(vs.getLast hvs).1 ++ '=' :: (vs.getLast hvs).2] ≠ []) hc
    · have hlast : (((if removeTrailingEmptyLines ls ≠ [] then
          removeTrailingEmptyLines ls ++ [[]] else removeTrailingEmptyLines ls) ++
          (vs.dropLast.map (fun kv => kv.1 ++ '=' :: kv.2))) ++
          [(vs.getLast hvs).1 ++ '=' :: (vs.getLast hvs).2]).getLast? =
          some ((vs.getLast hvs).1 ++ '=' :: (vs.getLast hvs).2) := by
        rw [List.getLast?_append]
        simp
      rw [hc] at hlast
      simp only [List.getLast?_singleton, Option.some_inj] at hlast
      exact hkne hlast.symm

theorem updateEnvVarInPlace_preserves_no_newline {key v : Str} {ls : List Str}
    (hk : ('\n' : Char) ∉ key) (hv : ('\n' : Char) ∉ v)
    (h : ∀ l ∈ ls, ('\n' : Char) ∉ l) :
    ∀ l ∈ (updateEnvVarInPlace ls key v).1, ('\n' : Char) ∉ l := by
  induction ls with
  | nil => simp [updateEnvVarInPlace]
  | cons l ls ih =>
    intro x hx
    by_cases hl : isEnvVarLine l key = true
    · simp only [updateEnvVarInPlace, if_pos hl] at hx
      rcases List.mem_cons.mp hx with hx | hx
      · exact hx ▸ newline_not_mem_env_line hk hv
      · exact h x (List.mem_cons_of_mem _ hx)
    · simp only [updateEnvVarInPlace, if_neg hl] at hx
      rcases List.mem_cons.mp hx with hx | hx
      · exact hx ▸ h l (List.mem_cons_self _ _)
      · exact ih (fun y hy => h y (List.mem_cons_of_mem _ hy)) x hx

theorem updateEnvVarInPlace_found_pair {key v : Str} {ls : List Str}
    {r : List Str × Bool} (hr : updateEnvVarInPlace ls key v = r) (h : r.2 = true) :
    trailingEmpties r.1 = trailingEmpties ls ∧ r.1.length = ls.length ∧
      (key ++ '=' :: v) ∈ r.1 := by
  subst hr
  obtain ⟨p, f, q, h1, h2, h3⟩ := updateEnvVarInPlace_found h
  refine ⟨?_, ?_, ?_⟩
  · rw [h2, h1, trailingEmpties_mid (by simp) p q,
      trailingEmpties_mid (isEnvVarLine_ne_nil h3) p q]
  · rw [h2, h1]; simp
  · rw [h2]; simp

theorem updateEnvVarInPlace_pair_preserves_no_newline {key v : Str} {ls : List Str}
    {r : List Str × Bool} (hr : updateEnvVarInPlace ls key v = r)
    (hk : ('\n' : Char) ∉ key) (hv : ('\n' : Char) ∉ v)
    (h : ∀ l ∈ ls, ('\n' : Char) ∉ l) :
    ∀ l ∈ r.1, ('\n' : Char) ∉ l := by
  subst hr
  exact updateEnvVarInPlace_preserves_no_newline hk hv h

/-- C9 (amended): for title/description values without newline
characters and every initial content (empty when the file is missing),
the written `.env` content ends with exactly one trailing newline,
unless both `VITE_TITLE` and `VITE_DESCRIPTION` are found and updated in
place and the original content ends with two or more newline characters,
in which case the original trailing newlines are preserved as they are
(the output's trailing-newline count equals the original's).  The
counterexample `writeEnvFile_two_trailing_newlines_cex` shows the
excluded case is real. -/
theorem writeEnvFile_single_trailing_newline
    (t d : Str) (existing : Option Str)
    (ht : ('\n' : Char) ∉ t) (hd : ('\n' : Char) ∉ d) :
    trailNl (writeEnvFileContent t d existing) =
      if (updateEnvVarInPlace (splitNl (existing.getD [])) ENV_TITLE t).2 = true
          ∧ (updateEnvVarInPlace
              (updateEnvVarInPlace (splitNl (existing.getD [])) ENV_TITLE t).1
              ENV_DESCRIPTION d).2 = true
          ∧ 2 ≤ trailNl (existing.getD [])
        then trailNl (existing.getD []) else 1 := by
  have hTnl : ('\n' : Char) ∉ ENV_TITLE := by decide
  have hDnl : ('\n' : Char) ∉ ENV_DESCRIPTION := by decide
  have hLnl : ∀ l ∈ splitNl (existing.getD []), ('\n' : Char) ∉ l :=
    fun l hl => not_mem_of_mem_splitOnChar '\n' _ l hl
  simp only [writeEnvFileContent]
  set u1 := updateEnvVarInPlace (splitNl (existing.getD [])) ENV_TITLE t with hu1
  set u2 := updateEnvVarInPlace u1.1 ENV_DESCRIPTION d with hu2
  have hA1nl : ∀ l ∈ u1.1, ('\n' : Char) ∉ l :=
    updateEnvVarInPlace_pair_preserves_no_newline hu1.symm hTnl ht hLnl
  have hA2nl : ∀ l ∈ u2.1, ('\n' : Char) ∉ l :=
    updateEnvVarInPlace_pair_preserves_no_newline hu2.symm hDnl hd hA1nl
  have happend : ∀ vs : List (Str × Str), vs ≠ [] →
      (∀ kv ∈ vs, ('\n' : Char) ∉ (kv.1 ++ '=' :: kv.2)) →
      trailNl (joinNl (addMissingEnvVars u2.1 vs) ++
        (if joinNl (addMissingEnvVars u2.1 vs) ≠ [] ∧
            ¬ endsWithStr (joinNl (addMissingEnvVars u2.1 vs)) ['\n']
          then ['\n'] else [])) = 1 := by
    intro vs hvs hnl
    obtain ⟨hz, hne⟩ := @addMissing_trailNl_zero u2.1 vs hvs hnl
    exact trailNl_finalize hne (by omega)
  cases h1 : u1.2 with
  | false =>
    rw [show (if (false = true ∧ u2.2 = true ∧ 2 ≤ trailNl (existing.getD []))
        then trailNl (existing.getD []) else 1) = 1 from if_neg (by simp)]
    rw [if_neg (by simp : ¬ (false = true))]
    apply happend
    · simp
    · intro kv hkv
      rcases List.mem_append.mp hkv with hkv | hkv
      · have hkveq : kv = (ENV_TITLE, t) := by simpa using hkv
        subst hkveq
        exact newline_not_mem_env_line hTnl ht
      · split at hkv
        · exact absurd hkv (by simp)
        · have hkveq : kv = (ENV_DESCRIPTION, d) := by simpa using hkv
          subst hkveq
          exact newline_not_mem_env_line hDnl hd
  | true =>
    rw [if_pos rfl, List.nil_append]
    cases h2 : u2.2 with
    | false =>
      rw [show (if (true = true ∧ false = true ∧ 2 ≤ trailNl (existing.getD []))
          then trailNl (existing.getD []) else 1) = 1 from if_neg (by simp)]
      rw [if_neg (by simp : ¬ (false = true))]
      apply happend
      · simp
      · intro kv hkv
        have : kv = (ENV_DESCRIPTION, d) := by simpa using hkv
        subst this
        exact newline_not_mem_env_line hDnl hd
    | true =>
      rw [if_pos rfl]
      have haddnil : addMissingEnvVars u2.1 [] = u2.1 := by
        simp [addMissingEnvVars]
      rw [haddnil]
      obtain ⟨htec1, hlen1, _⟩ := updateEnvVarInPlace_found_pair hu1.symm h1
      obtain ⟨htec2, hlen2, hDLmem⟩ := updateEnvVarInPlace_found_pair hu2.symm h2
      have hround : joinNl (splitNl (existing.getD [])) = existing.getD [] :=
        joinSep_splitOnChar '\n' (existing.getD [])
      have htr : trailNl (joinNl u2.1) = trailNl (existing.getD []) := by
        rw [trailNl_joinNl u2.1 hA2nl, htec2, htec1, hlen2, hlen1]
        conv_rhs => rw [← hround]
        rw [trailNl_joinNl (splitNl (existing.getD [])) hLnl]
      have hne : joinNl u2.1 ≠ [] := by
        intro hnil
        rcases (joinNl_eq_nil_iff _).mp hnil with hc | hc
        · rw [hc] at hDLmem
          simp at hDLmem
        · rw [hc] at hDLmem
          simp at hDLmem
      by_cases horig2 : 2 ≤ trailNl (existing.getD [])
      · rw [show (if (true = true ∧ true = true ∧ 2 ≤ trailNl (existing.getD []))
            then trailNl (existing.getD []) else 1) = trailNl (existing.getD [])
          from if_pos ⟨rfl, rfl, horig2⟩]
        have hE : endsWithStr (joinNl u2.1) ['\n'] = true :=
          (endsWith_newline_iff _).mpr (by omega)
        have hnofin : ¬ (joinNl u2.1 ≠ [] ∧
            ¬ endsWithStr (joinNl u2.1) ['\n'] = true) := by
          simp [hE]
        rw [if_neg hnofin, List.append_nil]
        exact htr
      · rw [show (if (true = true ∧ true = true ∧ 2 ≤ trailNl (existing.getD []))
            then trailNl (existing.getD []) else 1) = 1 from if_neg (by simp [horig2])]
        exact trailNl_finalize hne (by omega)

/-- C1 (amended): for a `.env` content none of whose lines assigns
`VITE_TITLE` or `VITE_DESCRIPTION` (comments, blank lines and key-value
lines of unrelated keys), the written output is exactly the original
lines with the maximal run of trailing blank lines removed, then a
single separating blank line (when anything remains), then the
`VITE_TITLE` line and the `VITE_DESCRIPTION` line, then the final
newline.  In particular every original line outside the trailing
blank-line run is unchanged, in its original order and position, and
only the two tool-owned keys are appended; but trailing blank lines are
trimmed, not preserved. -/
theorem writeEnvFile_preserves_unrelated_lines
    (orig t d : Str)
    (hinert : ∀ l ∈ splitNl orig,
      isEnvVarLine l ENV_TITLE = false ∧ isEnvVarLine l ENV_DESCRIPTION = false)
    (ht : ('\n' : Char) ∉ t) (hd : ('\n' : Char) ∉ d) :
    splitNl (writeEnvFileContent t d (some orig)) =
      removeTrailingEmptyLines (splitNl orig) ++
        (if removeTrailingEmptyLines (splitNl orig) = [] then [] else [[]]) ++
        [ENV_TITLE ++ '=' :: t, ENV_DESCRIPTION ++ '=' :: d, []] := by
  have h1 : updateEnvVarInPlace (splitNl orig) ENV_TITLE t = (splitNl orig, false) :=
    updateEnvVarInPlace_not_found (fun l hl => (hinert l hl).1)
  have h2 : updateEnvVarInPlace (splitNl orig) ENV_DESCRIPTION d = (splitNl orig, false) :=
    updateEnvVarInPlace_not_found (fun l hl => (hinert l hl).2)
  have hbody : writeEnvFileContent t d (some orig) =
      (let lines := addMissingEnvVars (splitNl orig)
        [(ENV_TITLE, t), (ENV_DESCRIPTION, d)]
       let content := joinNl lines
       content ++ (if content ≠ [] ∧ ¬ endsWithStr content ['\n'] then ['\n'] else [])) := by
    simp only [writeEnvFileContent, Option.getD_some, h1, h2]
    rfl
  set R := removeTrailingEmptyLines (splitNl orig) with hR
  have hadd : addMissingEnvVars (splitNl orig) [(ENV_TITLE, t), (ENV_DESCRIPTION, d)] =
      ((if R ≠ [] then R ++ [[]] else R) ++
        [ENV_TITLE ++ '=' :: t, ENV_DESCRIPTION ++ '=' :: d]) := by
    simp only [addMissingEnvVars, if_neg (by simp : ¬([((ENV_TITLE : Str), t),
      (ENV_DESCRIPTION, d)] = []))]
    rfl
  set TL : Str := ENV_TITLE ++ '=' :: t with hTL
  set DL : Str := ENV_DESCRIPTION ++ '=' :: d with hDL
  set X : List Str := if R ≠ [] then R ++ [[]] else R with hX
  have hTLnl : ('\n' : Char) ∉ TL := newline_not_mem_env_line (by decide) ht
  have hDLnl : ('\n' : Char) ∉ DL := newline_not_mem_env_line (by decide) hd
  have hDLne : DL ≠ [] := by simp [hDL]
  have hsplit3 : X ++ [TL, DL] = (X ++ [TL]) ++ [DL] := by simp
  have htrail : trailNl (joinNl (X ++ [TL, DL])) = 0 := by
    rw [hsplit3]; exact trailNl_joinNl_snoc_ne hDLne hDLnl
  have hlines3ne : X ++ [TL, DL] ≠ [] := by simp
  have hjne : joinNl (X ++ [TL, DL]) ≠ [] := by
    intro hnil
    rcases (joinNl_eq_nil_iff _).mp hnil with hc | hc
    · exact hlines3ne hc
    · have := congrArg List.length hc
      simp at this
  have hends : endsWithStr (joinNl (X ++ [TL, DL])) ['\n'] = false := by
    cases hE : endsWithStr (joinNl (X ++ [TL, DL])) ['\n'] with
    | false => rfl
    | true =>
      have := (endsWith_newline_iff _).mp hE
      rw [htrail] at this
      exact absurd this (by simp)
  have hout : writeEnvFileContent t d (some orig) = joinNl ((X ++ [TL, DL]) ++ [[]]) := by
    rw [hbody]
    simp only [hadd]
    rw [if_pos ⟨hjne, by simp [hends]⟩]
    simp only [joinNl]
    rw [joinSep_append_last ['\n'] [] hlines3ne]
    simp
  have hmem : ∀ l ∈ (X ++ [TL, DL]) ++ [[]], ('\n' : Char) ∉ l := by
    intro l hl
    rcases List.mem_append.mp hl with hl | hl
    · rcases List.mem_append.mp hl with hl | hl
      · rw [hX] at hl
        by_cases hRc : R = []
        · rw [if_neg (by simp [hRc])] at hl
          exact not_mem_of_mem_splitOnChar '\n' orig l
            (mem_removeTrailingEmptyLines (hR ▸ hl))
        · rw [if_pos hRc] at hl
          rcases List.mem_append.mp hl with hl | hl
          · exact not_mem_of_mem_splitOnChar '\n' orig l
              (mem_removeTrailingEmptyLines (hR ▸ hl))
          · have hle : l = [] := by simpa using hl
            simp [hle]
      · rcases List.mem_cons.mp hl with hl | hl
        · exact hl ▸ hTLnl
        · rcases List.mem_cons.mp hl with hl | hl
          · exact hl ▸ hDLnl
          · exact absurd hl (by simp)
    · rcases List.mem_cons.mp hl with hl | hl
      · simp [hl]
      · exact absurd hl (by simp)
  have hsplit : splitNl (joinNl ((X ++ [TL, DL]) ++ [[]])) = (X ++ [TL, DL]) ++ [[]] :=
    splitOnChar_joinSep '\n' (by simp) hmem
  rw [hout, hsplit]
  by_cases hRc : R = []
  · simp [hX, hRc]
  · simp [hX, hRc]

/-- Witness for `writeEnvFile_preserves_unrelated_lines`: a comment line
and an unrelated key survive unchanged in front of the appended keys. -/
theorem writeEnvFile_preserves_unrelated_lines_witness :
    splitNl (writeEnvFileContent (str "My title") (str "Nice app")
        (some (str "# hello\nFOO=bar"))) =
      [str "# hello", str "FOO=bar", [], str "VITE_TITLE=My title",
        str "VITE_DESCRIPTION=Nice app", []] := by
  have h := writeEnvFile_preserves_unrelated_lines (str "# hello\nFOO=bar")
    (str "My title") (str "Nice app") (by decide) (by decide) (by decide)
  exact h.trans (by decide)

/-- Witness for `writeEnvFile_single_trailing_newline` at a concrete
comment-only file ending with two trailing newlines: neither key is
found in place, so the output ends with exactly one trailing newline. -/
theorem writeEnvFile_single_trailing_newline_witness :
    trailNl (writeEnvFileContent (str "t") (str "d")
      (some (str "# a\nFOO=1\n\n\n"))) = 1 := by
  have h := writeEnvFile_single_trailing_newline (str "t") (str "d")
    (some (str "# a\nFOO=1\n\n\n")) (by decide) (by decide)
  rw [h]
  decide

/-! ### README lemmas -/

theorem joinNl_splitNl (s : Str) : joinNl (splitNl s) = s :=
  joinSep_splitOnChar '\n' s

theorem splitNl_joinNl {ls : List Str} (hne : ls ≠ [])
    (h : ∀ l ∈ ls, ('\n' : Char) ∉ l) : splitNl (joinNl ls) = ls :=
  splitOnChar_joinSep '\n' hne h

theorem startsWith_hash_head (n : Str) :
    startsWithStr (str "# " ++ n) (str "#") = true := by
  show startsWithStr ('#' :: ' ' :: n) ['#'] = true
  simp [startsWithStr, startsWithStr_nil_right]

theorem hash_head_no_newline {n : Str} (hn : ('\n' : Char) ∉ n) :
    ('\n' : Char) ∉ (str "# " ++ n) := by
  intro h
  rcases List.mem_append.mp h with h | h
  · exact absurd h (by decide)
  · exact hn h

/-- `updateReadmeTitle` always yields a document of the shape
`# name` followed by newline-free remaining lines. -/
theorem updateReadmeTitle_normal_form (c n : Str) :
    ∃ T : List Str, updateReadmeTitle c n = joinNl ((str "# " ++ n) :: T) ∧
      ∀ l ∈ T, ('\n' : Char) ∉ l := by
  unfold updateReadmeTitle
  rcases hsp : splitNl c with _ | ⟨l0, ls0⟩
  · exact absurd hsp (splitOnChar_ne_nil '\n' c)
  · have hmem : ∀ l ∈ l0 :: ls0, ('\n' : Char) ∉ l := by
      rw [← hsp]
      exact fun l hl => not_mem_of_mem_splitOnChar '\n' c l hl
    by_cases h0 : startsWithStr l0 (str "#") = true
    · refine ⟨ls0, ?_, fun l hl => hmem l (List.mem_cons_of_mem _ hl)⟩
      simp only [List.headD_cons, List.tail_cons, if_pos h0]
    · refine ⟨l0 :: ls0, ?_, hmem⟩
      simp only [List.headD_cons, List.tail_cons, if_neg h0]
      have hassoc : str "# " ++ n ++ '\n' :: l0 = (str "# " ++ n) ++ '\n' :: l0 := by
        simp [List.append_assoc]
      rw [hassoc, joinNl_cons_embedded (str "# " ++ n) l0 ls0]

/-- When the document already starts with the line `# name`, the title
patcher leaves it untouched. -/
theorem updateReadmeTitle_of_head {s : Str} (n : Str)
    (hhead : (splitNl s).headD [] = str "# " ++ n) :
    updateReadmeTitle s n = s := by
  unfold updateReadmeTitle
  rw [hhead, if_pos (startsWith_hash_head n), ← hhead]
  rcases hsp : splitNl s with _ | ⟨l0, ls0⟩
  · exact absurd hsp (splitOnChar_ne_nil '\n' s)
  · simp only [List.headD_cons, List.tail_cons]
    rw [← hsp, joinNl_splitNl]

/-- The appended-or-skipped document of `appendResourcesSection` always
contains the `## Resources` marker. -/
theorem appendResources_contains (s : Str) :
    containsStr (appendResourcesSection s) (str "## Resources") = true := by
  unfold appendResourcesSection
  split
  next h => exact h
  next h =>
    have hres : containsStr RESOURCES_SECTION (str "## Resources") = true :=
      containsStr_of_startsWith (by decide)
    rw [List.append_assoc]
    exact containsStr_append_right s (containsStr_append_right _ hres)

theorem appendResources_of_contains {s : Str}
    (h : containsStr s (str "## Resources") = true) :
    appendResourcesSection s = s := by
  unfold appendResourcesSection
  rw [if_pos h]

/-- After patching, the document's first split-line is still `# name`:
appending only touches the far end of the document. -/
theorem head_splitNl_patched (n : Str) (T : List Str) (hn : ('\n' : Char) ∉ n)
    (hT : ∀ l ∈ T, ('\n' : Char) ∉ l) :
    (splitNl (appendResourcesSection (joinNl ((str "# " ++ n) :: T)))).headD [] =
      str "# " ++ n := by
  have hxnl : ('\n' : Char) ∉ (str "# " ++ n) := hash_head_no_newline hn
  unfold appendResourcesSection
  split
  · rw [splitNl_joinNl (by simp) ?hmem]
    case hmem =>
      intro l hl
      rcases List.mem_cons.mp hl with hl | hl
      · exact hl ▸ hxnl
      · exact hT l hl
    simp
  · have hrest : ∃ rest : Str, joinNl ((str "# " ++ n) :: T) ++
        (if endsWithStr (joinNl ((str "# " ++ n) :: T)) ['\n'] then ['\n']
          else ['\n', '\n']) ++ RESOURCES_SECTION = (str "# " ++ n) ++ '\n' :: rest := by
      cases T with
      | nil =>
        split
        · exact ⟨RESOURCES_SECTION, by simp [joinNl, joinSep]⟩
        · exact ⟨'\n' :: RESOURCES_SECTION, by simp [joinNl, joinSep]⟩
      | cons t0 T' =>
        rw [joinNl, joinSep_cons_of_ne_nil ['\n'] (str "# " ++ n) (by simp)]
        split
        · exact ⟨joinSep ['\n'] (t0 :: T') ++ '\n' :: RESOURCES_SECTION, by
            simp [List.append_assoc]⟩
        · exact ⟨joinSep ['\n'] (t0 :: T') ++ '\n' :: '\n' :: RESOURCES_SECTION, by
            simp [List.append_assoc]⟩
    obtain ⟨rest, hrest⟩ := hrest
    rw [hrest]
    have hstep : splitOnChar '\n' ('\n' :: rest) = [] :: splitOnChar '\n' rest := by
      simp only [splitOnChar, if_pos (by simp : ('\n' == '\n') = true)]
    have hsca := splitOnChar_append_not_mem '\n' ('\n' :: rest) hxnl hstep
    rw [show splitNl ((str "# " ++ n) ++ '\n' :: rest) =
        splitOnChar '\n' ((str "# " ++ n) ++ '\n' :: rest) from rfl, hsca]
    simp

/-- C2 (amended): for every README content and every name without
newline characters, running the markdown patcher twice yields the same
document as running it once; the `## Resources` section is appended
exactly once.  The counterexample
`readmePatch_not_idempotent_newline_name` shows the newline restriction
is necessary. -/
theorem readmePatch_idempotent_of_no_newline (c n : Str) (hn : ('\n' : Char) ∉ n) :
    updateReadmeContent (updateReadmeContent c n) n = updateReadmeContent c n := by
  obtain ⟨T, hT1, hT2⟩ := updateReadmeTitle_normal_form c n
  have hhead : (splitNl (appendResourcesSection (updateReadmeTitle c n))).headD [] =
      str "# " ++ n := by
    rw [hT1]
    exact head_splitNl_patched n T hn hT2
  show appendResourcesSection
      (updateReadmeTitle (appendResourcesSection (updateReadmeTitle c n)) n) =
    updateReadmeContent c n
  rw [updateReadmeTitle_of_head n hhead,
    appendResources_of_contains (appendResources_contains (updateReadmeTitle c n))]
  rfl

/-- Witness for `readmePatch_idempotent_of_no_newline` at a concrete
document and name. -/
theorem readmePatch_idempotent_witness :
    updateReadmeContent (updateReadmeContent (str "hello world") (str "demo"))
        (str "demo") =
      updateReadmeContent (str "hello world") (str "demo") :=
  readmePatch_idempotent_of_no_newline (str "hello world") (str "demo") (by decide)

/-! ### Argument-parser lemmas -/

theorem lt_length_of_getD_ne_default {l : List α} {j : Nat} {d : α}
    (h : l.getD j d ≠ d) : j < l.length := by
  by_contra hle
  push_neg at hle
  rw [List.getD_eq_getElem?_getD, List.getElem?_len_le hle] at h
  exact h rfl

/-- An index that falls inside the `takeWhile` zone of a dropped suffix
satisfies the predicate. -/
theorem takeWhile_pred_of_getD {p : α → Bool} {l : List α} {m k : Nat} (d : α)
    (hk : k < ((l.drop m).takeWhile p).length) :
    p (l.getD (m + k) d) = true := by
  have hsplit : l.drop m = (l.drop m).takeWhile p ++ (l.drop m).dropWhile p :=
    (List.takeWhile_append_dropWhile p (l.drop m)).symm
  have hget : (l.drop m)[k]? = ((l.drop m).takeWhile p)[k]? := by
    conv_lhs => rw [hsplit]
    exact List.getElem?_append_left hk
  have hsome : ((l.drop m).takeWhile p)[k]? =
      some (((l.drop m).takeWhile p)[k]) :=
    List.getElem?_eq_getElem hk
  have hmem : ((l.drop m).takeWhile p)[k] ∈ (l.drop m).takeWhile p :=
    List.getElem_mem hk
  have hp : p (((l.drop m).takeWhile p)[k]) = true := List.mem_takeWhile_imp hmem
  have hq : l.getD (m + k) d = ((l.drop m).takeWhile p)[k] := by
    rw [List.getD_eq_getElem?_getD, ← List.getElem?_drop, hget, hsome]
    rfl
  rw [hq]
  exact hp

/-- When `--packageManager` occurs only as the very last token, the loop
never sets (nor validates) a package manager and completes normally. -/
theorem parseArgsLoop_pm_only_last (args : List Str)
    (honly : ∀ j, args.getD j [] = str "--packageManager" → j + 1 = args.length) :
    ∀ fuel i acc, ∃ o, parseArgsLoop args fuel i acc = .ok o ∧
      o.packageManager = acc.packageManager := by
  intro fuel
  induction fuel with
  | zero => exact fun i acc => ⟨acc, rfl, rfl⟩
  | succ fuel ih =>
    intro i acc
    by_cases hi : i < args.length
    case neg =>
      refine ⟨acc, ?_, rfl⟩
      simp only [parseArgsLoop, if_neg hi]
    case pos =>
    simp only [parseArgsLoop, if_pos hi]
    by_cases h1 : args.getD i [] = str "--name"
    · rw [if_pos h1]
      obtain ⟨o, ho, hpm⟩ := ih ((collectFlagValue args (i + 1)).nextIndex + 1)
        (if (collectFlagValue args (i + 1)).value ≠ [] then
          { acc with name := some (collectFlagValue args (i + 1)).value } else acc)
      refine ⟨o, ho, hpm.trans ?_⟩
      split <;> rfl
    · rw [if_neg h1]
      by_cases h2 : args.getD i [] = str "--description"
      · rw [if_pos h2]
        obtain ⟨o, ho, hpm⟩ := ih ((collectFlagValue args (i + 1)).nextIndex + 1)
          (if (collectFlagValue args (i + 1)).value ≠ [] then
            { acc with description := some (collectFlagValue args (i + 1)).value } else acc)
        refine ⟨o, ho, hpm.trans ?_⟩
        split <;> rfl
      · rw [if_neg h2]
        by_cases h3 : args.getD i [] = str "--packageManager" ∧ args.getD (i + 1) [] ≠ []
        · exfalso
          have hlen := honly i h3.1
          have hnil : args.getD (i + 1) [] = [] := by
            rw [List.getD_eq_getElem?_getD, List.getElem?_len_le (by omega)]
            rfl
          exact h3.2 hnil
        · rw [if_neg h3]
          by_cases h4 : args.getD i [] = str "--interactive"
          · rw [if_pos h4]
            by_cases h5 : args.getD (i + 1) [] = str "false" ∨ args.getD (i + 1) [] = str "0"
            · rw [if_pos h5]
              exact ih (i + 2) { acc with interactive := some false }
            · rw [if_neg h5]
              exact ih (i + 1) { acc with interactive := some true }
          · rw [if_neg h4]
            by_cases h6 : args.getD i [] = str "--no-interactive"
            · rw [if_pos h6]
              exact ih (i + 1) { acc with interactive := some false }
            · rw [if_neg h6]
              exact ih (i + 1) acc

/-- C10 (amended): for every argument list in which `--packageManager`
occurs only as the last token (nothing follows it), `parseArgs` silently
ignores the flag — no error, no exit, `packageManager` left unset — and
the merged configuration resolves the package manager from the remaining
precedence chain, i.e. the default `npm`.  The counterexample
`parseArgs_double_pm_last_exits` shows that an additional earlier
occurrence can instead consume the last token as its value and exit. -/
theorem parseArgs_trailing_pm_ignored (l : List Str) (pkg : Str × Str)
    (hnot : str "--packageManager" ∉ l) :
    (parseArgs (l ++ [str "--packageManager"])).map
        (fun o => o.packageManager) = .ok none ∧
    (parseArgs (l ++ [str "--packageManager"])).map
        (fun o => (mergeOptions o pkg).packageManager) = .ok PackageManager.npm := by
  have honly : ∀ j, (l ++ [str "--packageManager"]).getD j [] = str "--packageManager" →
      j + 1 = (l ++ [str "--packageManager"]).length := by
    intro j hj
    rcases Nat.lt_trichotomy j l.length with hlt | heq | hgt
    · exfalso
      rw [List.getD_eq_getElem?_getD, List.getElem?_append_left hlt] at hj
      have hmem : str "--packageManager" ∈ l := by
        cases hje : l[j]? with
        | none => rw [hje] at hj; exact absurd hj (by decide)
        | some x =>
          rw [hje] at hj
          simp only [Option.getD_some] at hj
          exact hj ▸ List.getElem?_mem hje
      exact hnot hmem
    · rw [List.length_append, List.length_singleton, heq]
    · exfalso
      rw [List.getD_eq_getElem?_getD,
        List.getElem?_len_le (by simp; omega)] at hj
      exact absurd hj (by decide)
  obtain ⟨o, ho, hpm⟩ := parseArgsLoop_pm_only_last (l ++ [str "--packageManager"]) honly
    ((l ++ [str "--packageManager"]).length + 1) 0 {}
  have hparse : parseArgs (l ++ [str "--packageManager"]) = .ok o := ho
  have hnone : o.packageManager = none := hpm
  rw [hparse]
  constructor
  · simp [Except.map, hnone]
  · simp [Except.map, mergeOptions, hnone, DEFAULTS]

/-- Witness for `parseArgs_trailing_pm_ignored`: a run
`--name demo --packageManager` parses fine with the default manager. -/
theorem parseArgs_trailing_pm_ignored_witness :
    (parseArgs [str "--name", str "demo", str "--packageManager"]).map
        (fun o => o.packageManager) = .ok none ∧
    (parseArgs [str "--name", str "demo", str "--packageManager"]).map
        (fun o => (mergeOptions o (str "pn", str "pd")).packageManager) =
      .ok PackageManager.npm :=
  parseArgs_trailing_pm_ignored [str "--name", str "demo"] (str "pn", str "pd")
    (by decide)

/-- The central exit lemma: if some position `j` at or after the scan
index holds the flag `--packageManager` immediately followed by a
non-empty token outside the enumeration, the loop ends in
`process.exit(1)`.  The index can never jump past `j`: multi-word
collection stops at `--`-tokens, `--interactive` only consumes
`false`/`0`, and a `--packageManager` that consumes position `j` as its
value exits right there because the flag token is itself invalid. -/
theorem parseArgsLoop_invalid_pm (args : List Str) (v : Str) (j : Nat)
    (hj : args.getD j [] = str "--packageManager")
    (hjv : args.getD (j + 1) [] = v)
    (hv : v ≠ []) (hvbad : toPackageManager? v = none) :
    ∀ fuel i acc, i ≤ j → j - i < fuel →
      parseArgsLoop args fuel i acc = .error 1 := by
  have hjlt : j < args.length :=
    lt_length_of_getD_ne_default (by rw [hj]; decide)
  intro fuel
  induction fuel with
  | zero => intro i acc hij hfuel; omega
  | succ fuel ih =>
    intro i acc hij hfuel
    have hi : i < args.length := lt_of_le_of_lt hij hjlt
    simp only [parseArgsLoop, if_pos hi]
    by_cases h1 : args.getD i [] = str "--name"
    · rw [if_pos h1]
      have hij' : i ≠ j := by
        intro he
        rw [he, hj] at h1
        exact absurd h1 (by decide)
      have hni : (collectFlagValue args (i + 1)).nextIndex + 1 =
          i + 1 + ((args.drop (i + 1)).takeWhile
            (fun a => !startsWithStr a (str "--"))).length := by
        simp only [collectFlagValue]
        omega
      have hjump : (collectFlagValue args (i + 1)).nextIndex + 1 ≤ j := by
        by_contra hgt
        push_neg at hgt
        have hk : j - (i + 1) < ((args.drop (i + 1)).takeWhile
            (fun a => !startsWithStr a (str "--"))).length := by omega
        have hp := takeWhile_pred_of_getD (p := fun a => !startsWithStr a (str "--"))
          (l := args) (m := i + 1) (k := j - (i + 1)) ([] : Str) hk
        rw [show i + 1 + (j - (i + 1)) = j from by omega, hj] at hp
        exact absurd hp (by decide)
      exact ih ((collectFlagValue args (i + 1)).nextIndex + 1) _ hjump (by omega)
    · rw [if_neg h1]
      by_cases h2 : args.getD i [] = str "--description"
      · rw [if_pos h2]
        have hij' : i ≠ j := by
          intro he
          rw [he, hj] at h2
          exact absurd h2 (by decide)
        have hni : (collectFlagValue args (i + 1)).nextIndex + 1 =
            i + 1 + ((args.drop (i + 1)).takeWhile
              (fun a => !startsWithStr a (str "--"))).length := by
          simp only [collectFlagValue]
          omega
        have hjump : (collectFlagValue args (i + 1)).nextIndex + 1 ≤ j := by
          by_contra hgt
          push_neg at hgt
          have hk : j - (i + 1) < ((args.drop (i + 1)).takeWhile
              (fun a => !startsWithStr a (str "--"))).length := by omega
          have hp := takeWhile_pred_of_getD (p := fun a => !startsWithStr a (str "--"))
            (l := args) (m := i + 1) (k := j - (i + 1)) ([] : Str) hk
          rw [show i + 1 + (j - (i + 1)) = j from by omega, hj] at hp
          exact absurd hp (by decide)
        exact ih ((collectFlagValue args (i + 1)).nextIndex + 1) _ hjump (by omega)
      · rw [if_neg h2]
        by_cases h3 : args.getD i [] = str "--packageManager" ∧ args.getD (i + 1) [] ≠ []
        · rw [if_pos h3]
          by_cases hieqj : i = j
          · subst hieqj
            rw [hjv, hvbad]
          · rcases hsome : toPackageManager? (args.getD (i + 1) []) with _ | pm'
            · rfl
            · have hne1 : i + 1 ≠ j := by
                intro he
                rw [← he] at hj
                rw [hj] at hsome
                have hnone : toPackageManager? (str "--packageManager") = none := by decide
                rw [hnone] at hsome
                exact Option.noConfusion hsome
              exact ih (i + 2) _ (by omega) (by omega)
        · rw [if_neg h3]
          have hij' : i ≠ j := by
            intro he
            subst he
            exact h3 ⟨hj, by rw [hjv]; exact hv⟩
          by_cases h4 : args.getD i [] = str "--interactive"
          · rw [if_pos h4]
            by_cases h5 : args.getD (i + 1) [] = str "false" ∨ args.getD (i + 1) [] = str "0"
            · rw [if_pos h5]
              have hne1 : i + 1 ≠ j := by
                intro he
                rw [← he] at hj
                rcases h5 with h5 | h5 <;> rw [h5] at hj <;> exact absurd hj (by decide)
              exact ih (i + 2) _ (by omega) (by omega)
            · rw [if_neg h5]
              exact ih (i + 1) _ (by omega) (by omega)
          · rw [if_neg h4]
            by_cases h6 : args.getD i [] = str "--no-interactive"
            · rw [if_pos h6]
              exact ih (i + 1) _ (by omega) (by omega)
            · rw [if_neg h6]
              exact ih (i + 1) _ (by omega) (by omega)

/-- C4 (amended): for every non-empty string `v` outside
`{npm, yarn, pnpm}`, an argument list containing `--packageManager`
immediately followed by `v` makes the parser terminate the process with
exit code 1, and the run never reaches the patchers: no project file is
read or written.  The counterexample `parseArgs_empty_pm_value_ignored`
shows the non-emptiness restriction is necessary. -/
theorem parseArgs_invalid_pm_exits (args : List Str) (v : Str) (j : Nat)
    (hj : args.getD j [] = str "--packageManager")
    (hjv : args.getD (j + 1) [] = v)
    (hv : v ≠ []) (hvbad : toPackageManager? v = none)
    (fs : FS) (a : Answers) :
    parseArgs args = .error 1 ∧
    mainModel args fs a =
      { exitCode := 1, fs := fs, questionsAsked := 0, confirmRan := false,
        cancelled := false } := by
  have hjlt : j < args.length :=
    lt_length_of_getD_ne_default (by rw [hj]; decide)
  have hparse : parseArgs args = .error 1 :=
    parseArgsLoop_invalid_pm args v j hj hjv hv hvbad (args.length + 1) 0 {}
      (by omega) (by omega)
  refine ⟨hparse, ?_⟩
  simp only [mainModel, hparse]

/-- Witness for `parseArgs_invalid_pm_exits`: `--packageManager cargo`
exits with code 1 and leaves the sample project untouched. -/
theorem parseArgs_invalid_pm_exits_witness :
    parseArgs [str "--packageManager", str "cargo"] = .error 1 ∧
    mainModel [str "--packageManager", str "cargo"] sampleFS sampleAnswers =
      { exitCode := 1, fs := sampleFS, questionsAsked := 0, confirmRan := false,
        cancelled := false } :=
  parseArgs_invalid_pm_exits [str "--packageManager", str "cargo"] (str "cargo") 0
    (by decide) (by decide) (by decide) (by decide) sampleFS sampleAnswers

/-- C8: with no existing `.env` file, the env patcher writes exactly the
`VITE_TITLE` line, then the `VITE_DESCRIPTION` line, then a single
trailing newline, with no leading blank line. -/
theorem writeEnvFile_creates_two_lines_fresh :
    writeEnvFileContent (str "demo") (str "desc") none =
      str "VITE_TITLE=demo\nVITE_DESCRIPTION=desc\n" :=
  rfl

/-- C1, counterexample: for the content `"# c\n\n\n"` (a comment line
followed by blank lines; no `VITE_`-keys), the blank line at position 2
is not preserved at its position in the written output — the trailing
blank lines are trimmed before the two keys are appended — refuting the
claim that every comment/blank/unrelated line survives unchanged in its
original order and position. -/
theorem writeEnvFile_drops_trailing_blank_line :
    (splitNl (str "# c\n\n\n"))[2]? = some [] ∧
    (splitNl (writeEnvFileContent (str "t") (str "d") (some (str "# c\n\n\n"))))[2]? =
      some (str "VITE_TITLE=t") :=
  ⟨rfl, rfl⟩

/-- C2, counterexample: with the name `"a\n#"` (which contains a newline),
running the markdown patcher twice does not give the same document as
running it once — the second run re-splits the first line at the embedded
newline and duplicates the `#` fragment — refuting idempotence for every
name. -/
theorem readmePatch_not_idempotent_newline_name :
    updateReadmeContent (updateReadmeContent (str "# t") (str "a\n#")) (str "a\n#") ≠
      updateReadmeContent (str "# t") (str "a\n#") := by
  decide

/-- C4, counterexample: `--packageManager` followed by the empty string
(a value outside the `{npm, yarn, pnpm}` enumeration) is silently
ignored — the JavaScript truthiness test `args[i + 1]` fails on `""` —
so the parser neither reports an error nor exits; it returns an empty
option set, refuting the claim for every invalid value. -/
theorem parseArgs_empty_pm_value_ignored :
    parseArgs [str "--packageManager", str ""] = .ok {} :=
  rfl

/-- C9, counterexample: when both `VITE_`-keys are already present and the
original content ends with two newline characters, the written content
also ends with two newline characters (the in-place update path never
trims trailing blank lines), refuting "exactly one trailing newline" for
every initial content. -/
theorem writeEnvFile_two_trailing_newlines_cex :
    trailNl (writeEnvFileContent (str "t") (str "d")
        (some (str "VITE_TITLE=a\nVITE_DESCRIPTION=b\n\n"))) = 2 ∧
    endsWithStr (writeEnvFileContent (str "t") (str "d")
        (some (str "VITE_TITLE=a\nVITE_DESCRIPTION=b\n\n"))) (str "\n\n") = true :=
  ⟨rfl, rfl⟩

/-- C10, counterexample: on `["--packageManager", "--packageManager"]`
the last token is `--packageManager` and nothing follows it, yet the run
is not silently ignored: the first occurrence consumes the second as its
value, `validatePackageManager` rejects it and the process exits with
code 1, refuting the claim for every argument list ending in the flag. -/
theorem parseArgs_double_pm_last_exits :
    parseArgs [str "--packageManager", str "--packageManager"] = .error 1 :=
  rfl

/-- The confirmation prompt rejects exactly the answers whose
lowercased, trimmed form is `n` or `no`. -/
theorem confirmChanges_false_iff (ans : Str) :
    confirmChanges ans = false ↔
      (trimStr (toLowerStr ans) = str "n" ∨ trimStr (toLowerStr ans) = str "no") := by
  by_cases h1 : trimStr (toLowerStr ans) = str "n" <;>
    by_cases h2 : trimStr (toLowerStr ans) = str "no" <;>
      simp [confirmChanges, h1, h2]

/-- C5: in an interactive run (the arguments parse and the resolved
options are interactive), the confirmation prompt rejects exactly the
answers whose trimmed, lowercased form is `n` or `no`; on rejection no
patcher runs — the project state is untouched — and the process
terminates with exit code 0; on every other answer (the empty string
included) the patchers are applied, also exiting 0. -/
theorem confirm_rejects_exactly_n_or_no (args : List Str) (fs : FS) (a : Answers)
    (cli : PartialOptions) (hok : parseArgs args = .ok cli)
    (hint : ((collectOptions args cli fs a).1).interactive = true) :
    ((mainModel args fs a).cancelled = true ↔
      (trimStr (toLowerStr a.confirmAnswer) = str "n" ∨
        trimStr (toLowerStr a.confirmAnswer) = str "no")) ∧
    ((mainModel args fs a).cancelled = true →
      (mainModel args fs a).fs = fs ∧ (mainModel args fs a).exitCode = 0) ∧
    ((mainModel args fs a).cancelled = false →
      (mainModel args fs a).fs =
          applyBootstrapChanges (collectOptions args cli fs a).1 fs ∧
        (mainModel args fs a).exitCode = 0) := by
  by_cases hconf : confirmChanges a.confirmAnswer = true
  · have hmain : mainModel args fs a =
        { exitCode := 0,
          fs := applyBootstrapChanges (collectOptions args cli fs a).1 fs,
          questionsAsked := (collectOptions args cli fs a).2 + 1,
          confirmRan := true, cancelled := false } := by
      simp only [mainModel, hok, if_pos hint, hconf]
      simp
    rw [hmain]
    refine ⟨?_, ?_, ?_⟩
    · simp only
      rw [← confirmChanges_false_iff]
      simp [hconf]
    · intro h
      exact absurd h (by simp)
    · intro _
      exact ⟨rfl, rfl⟩
  · have hconf' : confirmChanges a.confirmAnswer = false := by
      simpa using hconf
    have hmain : mainModel args fs a =
        { exitCode := 0, fs := fs,
          questionsAsked := (collectOptions args cli fs a).2 + 1,
          confirmRan := true, cancelled := true } := by
      simp only [mainModel, hok, if_pos hint, hconf']
      simp
    rw [hmain]
    refine ⟨?_, ?_, ?_⟩
    · simp only
      rw [← confirmChanges_false_iff]
      simp [hconf']
    · intro _
      exact ⟨rfl, rfl⟩
    · intro h
      exact absurd h (by simp)

/-- Witness for `confirm_rejects_exactly_n_or_no`: a default interactive
run answered ` N ` at the confirmation prompt. -/
theorem confirm_rejects_witness :
    ((mainModel [] sampleFS { confirmAnswer := str " N " }).cancelled = true ↔
      (trimStr (toLowerStr (str " N ")) = str "n" ∨
        trimStr (toLowerStr (str " N ")) = str "no")) ∧
    ((mainModel [] sampleFS { confirmAnswer := str " N " }).cancelled = true →
      (mainModel [] sampleFS { confirmAnswer := str " N " }).fs = sampleFS ∧
        (mainModel [] sampleFS { confirmAnswer := str " N " }).exitCode = 0) ∧
    ((mainModel [] sampleFS { confirmAnswer := str " N " }).cancelled = false →
      (mainModel [] sampleFS { confirmAnswer := str " N " }).fs =
          applyBootstrapChanges
            (collectOptions [] {} sampleFS { confirmAnswer := str " N " }).1 sampleFS ∧
        (mainModel [] sampleFS { confirmAnswer := str " N " }).exitCode = 0) :=
  confirm_rejects_exactly_n_or_no [] sampleFS { confirmAnswer := str " N " } {}
    rfl (by decide)

/-! ### CI-workflow patcher lemmas -/

/-- If the whitespace-stripped text does not start with the step-name
literal, the pattern cannot match here: the two `\s+` runs are followed
by non-whitespace literals, so backtracking cannot shorten them. -/
theorem matchInstallAt_none {s : Str}
    (h : startsWithStr (s.dropWhile jsWhitespace) NAME_LIT = false) :
    matchInstallAt s = none := by
  unfold matchInstallAt
  by_cases hws : s.takeWhile jsWhitespace = []
  · rw [if_pos hws]
  · rw [if_neg hws, h]
    rfl

/-- The pattern matches the canonical step shape and captures exactly
the whitespace, the step name, the run prefix and the command. -/
theorem matchInstallAt_canonical (W1 W2 CMD B : Str)
    (hW1ne : W1 ≠ []) (hW1 : ∀ c ∈ W1, jsWhitespace c = true)
    (hW2ne : W2 ≠ []) (hW2 : ∀ c ∈ W2, jsWhitespace c = true)
    (hCne : CMD ≠ []) (hC : ∀ c ∈ CMD, lineTerm c = false)
    (hB : ∀ c, B.head? = some c → lineTerm c = true) :
    matchInstallAt (W1 ++ (NAME_LIT ++ (W2 ++ (RUN_LIT ++ (CMD ++ B))))) =
      some (W1 ++ NAME_LIT ++ W2 ++ RUN_LIT, CMD, B) := by
  have hNameCons : ∀ X : Str, NAME_LIT ++ X =
      '-' :: (str " name: Install dependencies" ++ X) := fun X => rfl
  have hRunCons : ∀ X : Str, RUN_LIT ++ X = 'r' :: (str "un: " ++ X) := fun X => rfl
  have htake1 : (W1 ++ (NAME_LIT ++ (W2 ++ (RUN_LIT ++ (CMD ++ B))))).takeWhile
      jsWhitespace = W1 := by
    rw [takeWhile_append_all _ hW1, hNameCons,
      takeWhile_cons_false _ (by decide), List.append_nil]
  have hdrop1 : (W1 ++ (NAME_LIT ++ (W2 ++ (RUN_LIT ++ (CMD ++ B))))).dropWhile
      jsWhitespace = NAME_LIT ++ (W2 ++ (RUN_LIT ++ (CMD ++ B))) := by
    rw [dropWhile_append_all _ hW1, hNameCons, List.dropWhile_cons]
    simp only [show jsWhitespace '-' = false from by decide]
    rfl
  have htake2 : (W2 ++ (RUN_LIT ++ (CMD ++ B))).takeWhile jsWhitespace = W2 := by
    rw [takeWhile_append_all _ hW2, hRunCons,
      takeWhile_cons_false _ (by decide), List.append_nil]
  have hdrop2 : (W2 ++ (RUN_LIT ++ (CMD ++ B))).dropWhile jsWhitespace =
      RUN_LIT ++ (CMD ++ B) := by
    rw [dropWhile_append_all _ hW2, hRunCons, List.dropWhile_cons]
    simp only [show jsWhitespace 'r' = false from by decide]
    rfl
  have htakeB : B.takeWhile (fun c => !lineTerm c) = [] := by
    cases hBc : B with
    | nil => rfl
    | cons b B' =>
      refine takeWhile_cons_false B' ?_
      have := hB b (by rw [hBc]; rfl)
      simp [this]
  have hdropB : B.dropWhile (fun c => !lineTerm c) = B := by
    cases hBc : B with
    | nil => rfl
    | cons b B' =>
      rw [List.dropWhile_cons]
      have := hB b (by rw [hBc]; rfl)
      simp [this]
  have htakeC : (CMD ++ B).takeWhile (fun c => !lineTerm c) = CMD := by
    rw [takeWhile_append_all _ (fun c hc => by simp [hC c hc]), htakeB, List.append_nil]
  have hdropC : (CMD ++ B).dropWhile (fun c => !lineTerm c) = B := by
    rw [dropWhile_append_all _ (fun c hc => by simp [hC c hc]), hdropB]
  have htail : matchTail (W2 ++ (RUN_LIT ++ (CMD ++ B))) =
      some (W2 ++ RUN_LIT, CMD, B) := by
    unfold matchTail
    rw [htake2, hdrop2, if_neg hW2ne,
      if_pos (startsWithStr_append_self RUN_LIT (CMD ++ B)), List.drop_left,
      htakeC, hdropC, if_neg hCne]
  unfold matchInstallAt
  rw [htake1, hdrop1, if_neg hW1ne,
    if_pos (startsWithStr_append_self NAME_LIT (W2 ++ (RUN_LIT ++ (CMD ++ B)))),
    List.drop_left, htail]
  simp [List.append_assoc]

theorem findInstallGo_of_match {s : Str} {g1 g2 rest : Str}
    (h : matchInstallAt s = some (g1, g2, rest)) :
    findInstallGo s = some ([], g1, g2, rest) := by
  cases s with
  | nil =>
    rw [show matchInstallAt [] = none from rfl] at h
    exact Option.noConfusion h
  | cons c cs =>
    unfold findInstallGo
    rw [h]
    rfl

/-- Scanning skips a block whose last character is not whitespace and in
which the step-name literal never appears: the leftmost match lands
after it. -/
theorem findInstallGo_append (A REST : Str)
    (hAlast : ∀ c, A.getLast? = some c → jsWhitespace c = false)
    (hfirst : ∀ q, q < A.length →
      startsWithStr (A.drop q ++ REST) NAME_LIT = false) :
    findInstallGo (A ++ REST) =
      (findInstallGo REST).map (fun r => (A ++ r.1, r.2.1, r.2.2.1, r.2.2.2)) := by
  induction A with
  | nil =>
    show findInstallGo REST = _
    cases h : findInstallGo REST <;> simp
  | cons c A ih =>
    have hune : (c :: A).dropWhile jsWhitespace ≠ [] := by
      intro hnil
      have hall := List.dropWhile_eq_nil_iff.mp hnil
      obtain ⟨cl, hcl⟩ := exists_getLast?_of_ne_nil (by simp : (c :: A) ≠ [])
      have hfalse := hAlast cl hcl
      rw [hall cl (getLast?_mem_of_eq hcl)] at hfalse
      exact absurd hfalse (by decide)
    have hklt : ((c :: A).takeWhile jsWhitespace).length < (c :: A).length := by
      by_contra hge
      push_neg at hge
      rw [dropWhile_eq_drop_takeWhile, List.drop_of_length_le hge] at hune
      exact hune rfl
    have hmz : matchInstallAt (c :: (A ++ REST)) = none := by
      apply matchInstallAt_none
      rw [show c :: (A ++ REST) = (c :: A) ++ REST from rfl,
        dropWhile_append_ne_nil REST hune, dropWhile_eq_drop_takeWhile]
      exact hfirst ((c :: A).takeWhile jsWhitespace).length hklt
    have hAlast' : ∀ x, A.getLast? = some x → jsWhitespace x = false := by
      intro x hx
      cases A with
      | nil => exact absurd hx (by simp)
      | cons a A' =>
        exact hAlast x (by rw [List.getLast?_cons_cons]; exact hx)
    have hfirst' : ∀ q, q < A.length →
        startsWithStr (A.drop q ++ REST) NAME_LIT = false := by
      intro q hq
      have h := hfirst (q + 1) (by simpa using Nat.succ_lt_succ hq)
      simpa using h
    rw [show (c :: A) ++ REST = c :: (A ++ REST) from rfl]
    rw [show findInstallGo (c :: (A ++ REST)) =
        chooseFound (matchInstallAt (c :: (A ++ REST)))
          (prependFound c (findInstallGo (A ++ REST))) from rfl]
    rw [hmz, show chooseFound none (prependFound c (findInstallGo (A ++ REST))) =
        prependFound c (findInstallGo (A ++ REST)) from rfl,
      ih hAlast' hfirst']
    cases h : findInstallGo REST <;> simp [prependFound, h]

/-- C6: for a workflow document decomposed as text `A` (not ending in
whitespace, not containing an earlier occurrence of the step-name line),
then whitespace `W1`, the `- name: Install dependencies` line, then
whitespace `W2`, then `run: npm ci`, then the rest `B` (starting at a
line break), patching for yarn rewrites exactly the run command to the
table-driven `yarn install --frozen-lockfile` and leaves every other
character — hence every other line — of the document unchanged; the
matcher rewrites only this leftmost match. -/
theorem updateDeployYml_yarn_rewrites_first_run_line
    (A W1 W2 B : Str)
    (hA : (A.getLast?).all (fun c => !jsWhitespace c) = true)
    (hW1ne : W1 ≠ []) (hW1 : W1.all jsWhitespace = true)
    (hW2ne : W2 ≠ []) (hW2 : W2.all jsWhitespace = true)
    (hB : (B.head?).all lineTerm = true)
    (hfirst : ∀ q, q < A.length →
      startsWithStr
        (A.drop q ++ (W1 ++ (NAME_LIT ++ (W2 ++ (RUN_LIT ++ (str "npm ci" ++ B))))))
        NAME_LIT = false) :
    updateDeployYmlContent PackageManager.yarn
        (A ++ (W1 ++ (NAME_LIT ++ (W2 ++ (RUN_LIT ++ (str "npm ci" ++ B)))))) =
      A ++ (W1 ++ (NAME_LIT ++ (W2 ++ (RUN_LIT ++
        (str "yarn install --frozen-lockfile" ++ B))))) := by
  have hAlast : ∀ c, A.getLast? = some c → jsWhitespace c = false := by
    intro c hc
    rw [hc] at hA
    simpa using hA
  have hBhead : ∀ c, B.head? = some c → lineTerm c = true := by
    intro c hc
    rw [hc] at hB
    simpa using hB
  have hmc := matchInstallAt_canonical W1 W2 (str "npm ci") B hW1ne
    (List.all_eq_true.mp hW1) hW2ne (List.all_eq_true.mp hW2)
    (by decide) (by decide) hBhead
  have hfind := findInstallGo_of_match hmc
  have happ := findInstallGo_append A
    (W1 ++ (NAME_LIT ++ (W2 ++ (RUN_LIT ++ (str "npm ci" ++ B))))) hAlast hfirst
  rw [hfind] at happ
  unfold updateDeployYmlContent
  rw [happ]
  simp [getGithubActionsInstallCommand, List.append_assoc]

/-- Witness for `updateDeployYml_yarn_rewrites_first_run_line` on a
small workflow document. -/
theorem updateDeployYml_yarn_witness :
    updateDeployYmlContent PackageManager.yarn
        (str "jobs:" ++ (str "\n      " ++ (NAME_LIT ++ (str "\n        " ++
          (RUN_LIT ++ (str "npm ci" ++ str "\n")))))) =
      str "jobs:" ++ (str "\n      " ++ (NAME_LIT ++ (str "\n        " ++
        (RUN_LIT ++ (str "yarn install --frozen-lockfile" ++ str "\n"))))) :=
  updateDeployYml_yarn_rewrites_first_run_line (str "jobs:") (str "\n      ")
    (str "\n        ") (str "\n") (by decide) (by decide) (by decide) (by decide)
    (by decide) (by decide) (by decide)

/-- C7: a run invoked with the raw token `--interactive=false` skips the
three configuration prompts (`shouldSkipInteractive` sees the raw token)
but still runs the summary/confirm flow and issues the confirmation
question, because `main` gates the flow on the merged `interactive`
value, which defaults to `true`; a `--no-interactive` run does not
confirm.  This exhibits the divergence from the specified behaviour
("no prompter question is issued, the summary/confirm flow does not
run, exactly as for `--no-interactive`"). -/
theorem interactiveEqFalse_still_confirms :
    (mainModel [str "--interactive=false"] sampleFS sampleAnswers).confirmRan = true ∧
    (mainModel [str "--interactive=false"] sampleFS sampleAnswers).questionsAsked = 1 ∧
    (mainModel [str "--no-interactive"] sampleFS sampleAnswers).confirmRan = false ∧
    (mainModel [str "--no-interactive"] sampleFS sampleAnswers).questionsAsked = 0 :=
  ⟨rfl, rfl, rfl, rfl⟩

end Bootstrap

